import Mathlib

/-!
Verification of block-cipher modes of operation (ECB, CBC, CTR) layered on a
16-byte block cipher, as implemented in `src/lib.rs`.

Bytes are modelled as `Nat` values below 256, byte buffers as `List Nat`, and
`[u8; 16]` blocks as `List Nat` values of length 16. Rust operations that can
panic (the slice `data[i..i + 16]` in `group` when the length is not a multiple
of the block size, and the `blocks[0]` index in `cbc_decrypt` / `ctr_decrypt`
on an empty block list) are modelled with `Option`, `none` standing for a panic.

The single-block transform is the external collaborator: the `aes` crate's
AES-128. It is modelled concretely from FIPS 197 (S-box tables, xtime-based
GF(2^8) column mixing, the AES-128 key schedule and the 10-round structure),
so that the repository's concrete ECB test vector can be checked and so that
the mode-level round trips need no axioms about the collaborator.
-/

set_option maxRecDepth 40000

namespace BlockModes

/-- Block size of AES-128: 16 bytes, `BLOCK_SIZE` in the source. -/
def BLOCK_SIZE : Nat := 16

/-! ### The external block-cipher collaborator: AES-128 (FIPS 197) -/

/-- The AES forward S-box (FIPS 197, Fig. 7). -/
def SBOX : List Nat := [
  99, 124, 119, 123, 242, 107, 111, 197, 48, 1, 103, 43, 254, 215, 171, 118,
  202, 130, 201, 125, 250, 89, 71, 240, 173, 212, 162, 175, 156, 164, 114, 192,
  183, 253, 147, 38, 54, 63, 247, 204, 52, 165, 229, 241, 113, 216, 49, 21,
  4, 199, 35, 195, 24, 150, 5, 154, 7, 18, 128, 226, 235, 39, 178, 117,
  9, 131, 44, 26, 27, 110, 90, 160, 82, 59, 214, 179, 41, 227, 47, 132,
  83, 209, 0, 237, 32, 252, 177, 91, 106, 203, 190, 57, 74, 76, 88, 207,
  208, 239, 170, 251, 67, 77, 51, 133, 69, 249, 2, 127, 80, 60, 159, 168,
  81, 163, 64, 143, 146, 157, 56, 245, 188, 182, 218, 33, 16, 255, 243, 210,
  205, 12, 19, 236, 95, 151, 68, 23, 196, 167, 126, 61, 100, 93, 25, 115,
  96, 129, 79, 220, 34, 42, 144, 136, 70, 238, 184, 20, 222, 94, 11, 219,
  224, 50, 58, 10, 73, 6, 36, 92, 194, 211, 172, 98, 145, 149, 228, 121,
  231, 200, 55, 109, 141, 213, 78, 169, 108, 86, 244, 234, 101, 122, 174, 8,
  186, 120, 37, 46, 28, 166, 180, 198, 232, 221, 116, 31, 75, 189, 139, 138,
  112, 62, 181, 102, 72, 3, 246, 14, 97, 53, 87, 185, 134, 193, 29, 158,
  225, 248, 152, 17, 105, 217, 142, 148, 155, 30, 135, 233, 206, 85, 40, 223,
  140, 161, 137, 13, 191, 230, 66, 104, 65, 153, 45, 15, 176, 84, 187, 22]

/-- The AES inverse S-box (FIPS 197, Fig. 14). -/
def INV_SBOX : List Nat := [
  82, 9, 106, 213, 48, 54, 165, 56, 191, 64, 163, 158, 129, 243, 215, 251,
  124, 227, 57, 130, 155, 47, 255, 135, 52, 142, 67, 68, 196, 222, 233, 203,
  84, 123, 148, 50, 166, 194, 35, 61, 238, 76, 149, 11, 66, 250, 195, 78,
  8, 46, 161, 102, 40, 217, 36, 178, 118, 91, 162, 73, 109, 139, 209, 37,
  114, 248, 246, 100, 134, 104, 152, 22, 212, 164, 92, 204, 93, 101, 182, 146,
  108, 112, 72, 80, 253, 237, 185, 218, 94, 21, 70, 87, 167, 141, 157, 132,
  144, 216, 171, 0, 140, 188, 211, 10, 247, 228, 88, 5, 184, 179, 69, 6,
  208, 44, 30, 143, 202, 63, 15, 2, 193, 175, 189, 3, 1, 19, 138, 107,
  58, 145, 17, 65, 79, 103, 220, 234, 151, 242, 207, 206, 240, 180, 230, 115,
  150, 172, 116, 34, 231, 173, 53, 133, 226, 249, 55, 232, 28, 117, 223, 110,
  71, 241, 26, 113, 29, 41, 197, 137, 111, 183, 98, 14, 170, 24, 190, 27,
  252, 86, 62, 75, 198, 210, 121, 32, 154, 219, 192, 254, 120, 205, 90, 244,
  31, 221, 168, 51, 136, 7, 199, 49, 177, 18, 16, 89, 39, 128, 236, 95,
  96, 81, 127, 169, 25, 181, 74, 13, 45, 229, 122, 159, 147, 201, 156, 239,
  160, 224, 59, 77, 174, 42, 245, 176, 200, 235, 187, 60, 131, 83, 153, 97,
  23, 43, 4, 126, 186, 119, 214, 38, 225, 105, 20, 99, 85, 33, 12, 125]

/-- Forward S-box lookup on a byte. -/
def sbox (b : Nat) : Nat := SBOX.getD b 0

/-- Inverse S-box lookup on a byte. -/
def invSbox (b : Nat) : Nat := INV_SBOX.getD b 0

/-- Multiplication by x in GF(2^8) modulo the AES polynomial x^8+x^4+x^3+x+1.
On bytes below 256 this is the usual xtime: shift left and, if the shifted-out
bit was set, reduce by xoring with 0x11b (which also clears bit 8). -/
def xtime (b : Nat) : Nat := if b < 128 then 2 * b else (2 * b) ^^^ 0x11b

/-- Multiplication by 2 in GF(2^8). -/
def mul2 (b : Nat) : Nat := xtime b

/-- Multiplication by 3 = 2 + 1 in GF(2^8). -/
def mul3 (b : Nat) : Nat := xtime b ^^^ b

/-- Multiplication by 9 = 8 + 1 in GF(2^8). -/
def mul9 (b : Nat) : Nat := xtime (xtime (xtime b)) ^^^ b

/-- Multiplication by 11 = 8 + 2 + 1 in GF(2^8). -/
def mul11 (b : Nat) : Nat := xtime (xtime (xtime b)) ^^^ xtime b ^^^ b

/-- Multiplication by 13 = 8 + 4 + 1 in GF(2^8). -/
def mul13 (b : Nat) : Nat := xtime (xtime (xtime b)) ^^^ xtime (xtime b) ^^^ b

/-- Multiplication by 14 = 8 + 4 + 2 in GF(2^8). -/
def mul14 (b : Nat) : Nat := xtime (xtime (xtime b)) ^^^ xtime (xtime b) ^^^ xtime b

/-- SubBytes: apply the S-box to every state byte. -/
def subBytes (s : List Nat) : List Nat := s.map sbox

/-- InvSubBytes: apply the inverse S-box to every state byte. -/
def invSubBytes (s : List Nat) : List Nat := s.map invSbox

/-- ShiftRows on the flat 16-byte state in input-byte order (the state is
column-major: byte r + 4*c is row r, column c; row r rotates left by r). -/
def shiftRows (s : List Nat) : List Nat :=
  match s with
  | [s0, s1, s2, s3, s4, s5, s6, s7, s8, s9, s10, s11, s12, s13, s14, s15] =>
      [s0, s5, s10, s15, s4, s9, s14, s3, s8, s13, s2, s7, s12, s1, s6, s11]
  | t => t

/-- InvShiftRows: the inverse permutation of `shiftRows`. -/
def invShiftRows (s : List Nat) : List Nat :=
  match s with
  | [s0, s1, s2, s3, s4, s5, s6, s7, s8, s9, s10, s11, s12, s13, s14, s15] =>
      [s0, s13, s10, s7, s4, s1, s14, s11, s8, s5, s2, s15, s12, s9, s6, s3]
  | t => t

/-- MixColumns on one column. -/
def mixCol (a b c d : Nat) : List Nat :=
  [mul2 a ^^^ mul3 b ^^^ c ^^^ d,
   a ^^^ mul2 b ^^^ mul3 c ^^^ d,
   a ^^^ b ^^^ mul2 c ^^^ mul3 d,
   mul3 a ^^^ b ^^^ c ^^^ mul2 d]

/-- InvMixColumns on one column. -/
def invMixCol (a b c d : Nat) : List Nat :=
  [mul14 a ^^^ mul11 b ^^^ mul13 c ^^^ mul9 d,
   mul9 a ^^^ mul14 b ^^^ mul11 c ^^^ mul13 d,
   mul13 a ^^^ mul9 b ^^^ mul14 c ^^^ mul11 d,
   mul11 a ^^^ mul13 b ^^^ mul9 c ^^^ mul14 d]

/-- MixColumns on the flat 16-byte state (columns are consecutive 4-byte runs). -/
def mixColumns (s : List Nat) : List Nat :=
  match s with
  | [a0, a1, a2, a3, b0, b1, b2, b3, c0, c1, c2, c3, d0, d1, d2, d3] =>
      mixCol a0 a1 a2 a3 ++ mixCol b0 b1 b2 b3 ++ mixCol c0 c1 c2 c3 ++ mixCol d0 d1 d2 d3
  | t => t

/-- InvMixColumns on the flat 16-byte state. -/
def invMixColumns (s : List Nat) : List Nat :=
  match s with
  | [a0, a1, a2, a3, b0, b1, b2, b3, c0, c1, c2, c3, d0, d1, d2, d3] =>
      invMixCol a0 a1 a2 a3 ++ invMixCol b0 b1 b2 b3 ++
      invMixCol c0 c1 c2 c3 ++ invMixCol d0 d1 d2 d3
  | t => t

/-- AddRoundKey: xor the state with a round key, byte by byte. -/
def addRoundKey (rk s : List Nat) : List Nat := List.zipWith (fun a b => a ^^^ b) s rk

/-- RotWord of the key schedule: rotate a 4-byte word left by one byte. -/
def rotWord (w : List Nat) : List Nat :=
  match w with
  | [a, b, c, d] => [b, c, d, a]
  | t => t

/-- SubWord of the key schedule: S-box each byte of a word. -/
def subWord (w : List Nat) : List Nat := w.map sbox

/-- Round constants Rcon[1..10] of the AES-128 key schedule (index 0 unused). -/
def RCON : List Nat := [0, 1, 2, 4, 8, 16, 32, 64, 128, 27, 54]

/-- Xor two key-schedule words byte by byte. -/
def wordXor (a b : List Nat) : List Nat := List.zipWith (fun x y => x ^^^ y) a b

/-- AES-128 key expansion: the 44 four-byte words w[0..43] of FIPS 197 §5.2,
built by folding the generation step 40 times over the 4 initial key words.
The word index `i` of the specification equals the number of words generated
so far, i.e. the current length of the accumulator. -/
def expandKey (key : List Nat) : List (List Nat) :=
  (List.range 40).foldl
    (fun ws _ =>
      let i := ws.length
      let prev := ws.getD (i - 1) []
      let back := ws.getD (i - 4) []
      let temp :=
        if i % 4 == 0 then
          wordXor (subWord (rotWord prev)) [RCON.getD (i / 4) 0, 0, 0, 0]
        else prev
      ws ++ [wordXor back temp])
    [key.take 4, (key.drop 4).take 4, (key.drop 8).take 4, (key.drop 12).take 4]

/-- Round key i: the concatenation of expanded-key words 4i..4i+3. -/
def roundKey (key : List Nat) (i : Nat) : List Nat :=
  (((expandKey key).drop (4 * i)).take 4).flatten

/-- Model of `aes_encrypt` from the source: one AES-128 block encryption
(the `aes` crate collaborator), FIPS 197 cipher with the 10-round structure
written out. -/
def aes_encrypt (data key : List Nat) : List Nat :=
  let s0 := addRoundKey (roundKey key 0) data
  let s1 := addRoundKey (roundKey key 1) (mixColumns (shiftRows (subBytes s0)))
  let s2 := addRoundKey (roundKey key 2) (mixColumns (shiftRows (subBytes s1)))
  let s3 := addRoundKey (roundKey key 3) (mixColumns (shiftRows (subBytes s2)))
  let s4 := addRoundKey (roundKey key 4) (mixColumns (shiftRows (subBytes s3)))
  let s5 := addRoundKey (roundKey key 5) (mixColumns (shiftRows (subBytes s4)))
  let s6 := addRoundKey (roundKey key 6) (mixColumns (shiftRows (subBytes s5)))
  let s7 := addRoundKey (roundKey key 7) (mixColumns (shiftRows (subBytes s6)))
  let s8 := addRoundKey (roundKey key 8) (mixColumns (shiftRows (subBytes s7)))
  let s9 := addRoundKey (roundKey key 9) (mixColumns (shiftRows (subBytes s8)))
  addRoundKey (roundKey key 10) (shiftRows (subBytes s9))

/-- Model of `aes_decrypt` from the source: one AES-128 block decryption
(the `aes` crate collaborator), the inverse cipher undoing the rounds of
`aes_encrypt` in reverse order. -/
def aes_decrypt (data key : List Nat) : List Nat :=
  let t9 := invSubBytes (invShiftRows (addRoundKey (roundKey key 10) data))
  let t8 := invSubBytes (invShiftRows (invMixColumns (addRoundKey (roundKey key 9) t9)))
  let t7 := invSubBytes (invShiftRows (invMixColumns (addRoundKey (roundKey key 8) t8)))
  let t6 := invSubBytes (invShiftRows (invMixColumns (addRoundKey (roundKey key 7) t7)))
  let t5 := invSubBytes (invShiftRows (invMixColumns (addRoundKey (roundKey key 6) t6)))
  let t4 := invSubBytes (invShiftRows (invMixColumns (addRoundKey (roundKey key 5) t5)))
  let t3 := invSubBytes (invShiftRows (invMixColumns (addRoundKey (roundKey key 4) t4)))
  let t2 := invSubBytes (invShiftRows (invMixColumns (addRoundKey (roundKey key 3) t3)))
  let t1 := invSubBytes (invShiftRows (invMixColumns (addRoundKey (roundKey key 2) t2)))
  let t0 := invSubBytes (invShiftRows (invMixColumns (addRoundKey (roundKey key 1) t1)))
  addRoundKey (roundKey key 0) t0

/-! ### Padding engine and block grouper from `src/lib.rs` -/

/-- Model of `pad`: append n = 16 - len % 16 bytes, each of value n. -/
def pad (data : List Nat) : List Nat :=
  let number_pad_bytes := BLOCK_SIZE - data.length % BLOCK_SIZE
  data ++ List.replicate number_pad_bytes number_pad_bytes

/-- Model of `un_pad`: on a nonempty buffer read the last byte n; if n is 0 or
exceeds the length the padding is invalid and the buffer is returned as is,
otherwise the last n bytes are stripped. -/
def un_pad (data : List Nat) : List Nat :=
  if data.isEmpty then data
  else
    let last_byte := data.getLastD 0
    if last_byte = 0 ∨ data.length < last_byte then data
    else data.take (data.length - last_byte)

/-- Worker of `group`, structurally recursive on a fuel bounding the number of
loop iterations: each iteration takes the slice data[i..i+16], which panics
(modelled as `none`) when fewer than 16 bytes remain. -/
def groupGo : Nat → List Nat → Option (List (List Nat))
  | _, [] => some []
  | 0, _ :: _ => none
  | fuel + 1, d =>
      if d.length < BLOCK_SIZE then none
      else (groupGo fuel (d.drop BLOCK_SIZE)).map (fun bs => d.take BLOCK_SIZE :: bs)

/-- Model of `group`: slice the buffer into consecutive 16-byte blocks.
`none` models the slice-out-of-range panic when the length is not a multiple
of 16. The buffer length bounds the number of iterations, so it is the fuel. -/
def group (data : List Nat) : Option (List (List Nat)) :=
  groupGo data.length data

/-- Model of `un_group`: concatenate the blocks in order. -/
def un_group (blocks : List (List Nat)) : List Nat := blocks.flatten

/-- Model of `xor_block`: byte-wise xor of two 16-byte blocks. -/
def xor_block (block1 block2 : List Nat) : List Nat :=
  List.zipWith (fun a b => a ^^^ b) block1 block2

/-! ### Mode drivers from `src/lib.rs`. Randomness (the CBC IV and the CTR
nonce drawn from `rand::thread_rng`) is the injected randomness capability of
the spec and is passed as an explicit argument. -/

/-- Model of the ECB encryption: pad, group, encrypt every block, ungroup. -/
def ecb_encrypt (plain_text key : List Nat) : Option (List Nat) :=
  (group (pad plain_text)).map
    (fun blocks => un_group (blocks.map (fun block => aes_encrypt block key)))

/-- Model of the ECB decryption: group, decrypt every block, ungroup, unpad. -/
def ecb_decrypt (cipher_text key : List Nat) : Option (List Nat) :=
  (group cipher_text).map
    (fun blocks => un_pad (un_group (blocks.map (fun block => aes_decrypt block key))))

/-- The CBC encryption loop as state-passing recursion: encrypt each block
xored with the previous ciphertext block, which starts as the IV. -/
def cbcEncBlocks (key prev : List Nat) : List (List Nat) → List (List Nat)
  | [] => []
  | block :: rest =>
      let encrypted_block := aes_encrypt (xor_block block prev) key
      encrypted_block :: cbcEncBlocks key encrypted_block rest

/-- Model of `cbc_encrypt`. The random IV filled in by the rng is the `iv`
argument; it is emitted unencrypted as the first block. -/
def cbc_encrypt (iv plain_text key : List Nat) : Option (List Nat) :=
  (group (pad plain_text)).map
    (fun blocks => un_group (iv :: cbcEncBlocks key iv blocks))

/-- The CBC decryption loop as state-passing recursion: decrypt each block and
xor with the previous ciphertext block. -/
def cbcDecBlocks (key prev : List Nat) : List (List Nat) → List (List Nat)
  | [] => []
  | block :: rest =>
      xor_block (aes_decrypt block key) prev :: cbcDecBlocks key block rest

/-- Model of `cbc_decrypt`: the first block is the IV (the `blocks[0]` read
panics on an empty block list, modelled as `none`), the remaining blocks are
chained through the decryption loop, then ungrouped and unpadded. -/
def cbc_decrypt (cipher_text key : List Nat) : Option (List Nat) :=
  (group cipher_text).bind
    (fun blocks =>
      match blocks with
      | [] => none
      | b0 :: rest => some (un_pad (un_group (cbcDecBlocks key b0 rest))))

/-- Big-endian bytes of the 64-bit counter, as `counter.to_be_bytes()`. -/
def toBeBytes8 (n : Nat) : List Nat :=
  [(n >>> 56) &&& 255, (n >>> 48) &&& 255, (n >>> 40) &&& 255, (n >>> 32) &&& 255,
   (n >>> 24) &&& 255, (n >>> 16) &&& 255, (n >>> 8) &&& 255, n &&& 255]

/-- The per-block CTR input: the 8-byte nonce followed by the big-endian
counter bytes. -/
def ctrBlock (nonce : List Nat) (counter : Nat) : List Nat :=
  nonce ++ toBeBytes8 counter

/-- The CTR loop, shared verbatim by encryption and decryption in the source:
xor each block with the encrypted nonce-and-counter block. -/
def ctrBlocks (key nonce : List Nat) (counter : Nat) : List (List Nat) → List (List Nat)
  | [] => []
  | block :: rest =>
      xor_block block (aes_encrypt (ctrBlock nonce counter) key) ::
        ctrBlocks key nonce (counter + 1) rest

/-- Model of `ctr_encrypt`. The random 8-byte nonce filled in by the rng is the
`nonce` argument; the first emitted block is the nonce padded with zeros. -/
def ctr_encrypt (nonce plain_text key : List Nat) : Option (List Nat) :=
  (group (pad plain_text)).map
    (fun blocks =>
      un_group ((nonce ++ List.replicate 8 0) :: ctrBlocks key nonce 0 blocks))

/-- Model of `ctr_decrypt`: the nonce is the first half of the first block
(the `blocks[0]` read panics on an empty block list, modelled as `none`). -/
def ctr_decrypt (cipher_text key : List Nat) : Option (List Nat) :=
  (group cipher_text).bind
    (fun blocks =>
      match blocks with
      | [] => none
      | b0 :: rest => some (un_pad (un_group (ctrBlocks key (b0.take 8) 0 rest))))

/-- Lower-case hex digit of a nibble: 0..9 map to the digit characters and
10..15 to the letters a..f, as in the hex crate's encoding alphabet. -/
def hexDigit (n : Nat) : Char :=
  if n < 10 then Char.ofNat (48 + n) else Char.ofNat (87 + n)

/-- Hex encoding of a byte buffer, as `hex::encode` in the tests. -/
def hexEncode (data : List Nat) : List Char :=
  data.flatMap (fun b => [hexDigit ((b >>> 4) &&& 15), hexDigit (b &&& 15)])

/-- The test key of the source's test module. -/
def TEST_KEY : List Nat :=
  [6, 108, 74, 203, 170, 212, 94, 238, 171, 104, 19, 17, 248, 197, 127, 138]

/-- The ASCII bytes of the test plaintext of the source, the text
Polkadot Blockchain Academy with a final exclamation mark (28 bytes). -/
def PBA_MSG : List Nat :=
  [80, 111, 108, 107, 97, 100, 111, 116, 32, 66, 108, 111, 99, 107, 99, 104,
   97, 105, 110, 32, 65, 99, 97, 100, 101, 109, 121, 33]

/-- The ciphertext bytes asserted by the source's `ecb_encrypt_test`
(hex 12d4105e43c4426e1f3e9455bb39c8fc0a4667637c9de8bad43ee801d313a555). -/
def PBA_CT : List Nat :=
  [18, 212, 16, 94, 67, 196, 66, 110, 31, 62, 148, 85, 187, 57, 200, 252,
   10, 70, 103, 99, 124, 157, 232, 186, 212, 62, 232, 1, 211, 19, 165, 85]

/-- ECB ciphertext of the 32-byte buffer of value-7 bytes under the test key,
used to exhibit the ECB pattern leakage on a plaintext with two identical
blocks. Its first two 16-byte blocks are identical. -/
def DEMO_CT : List Nat :=
  [58, 187, 214, 248, 106, 158, 128, 38, 62, 19, 206, 159, 208, 6, 175, 129,
   58, 187, 214, 248, 106, 158, 128, 38, 62, 19, 206, 159, 208, 6, 175, 129,
   171, 56, 219, 21, 59, 224, 171, 147, 88, 203, 10, 230, 55, 111, 86, 226]

/-- CBC ciphertext of the 32-byte buffer of value-7 bytes under the test key
with the all-sevens IV: the IV block followed by three chained blocks. Used to
exhibit tamper localization on a concrete ciphertext. -/
def CBC_DEMO_CT : List Nat :=
  [7, 7, 7, 7, 7, 7, 7, 7, 7, 7, 7, 7, 7, 7, 7, 7,
   87, 119, 223, 36, 6, 99, 7, 42, 101, 131, 51, 135, 139, 39, 166, 140,
   237, 170, 188, 139, 181, 97, 61, 158, 193, 242, 251, 86, 230, 82, 202, 149,
   185, 249, 6, 21, 51, 58, 95, 104, 23, 83, 87, 251, 69, 80, 125, 194]

/-- CTR ciphertext of the 32-byte buffer of value-7 bytes under the test key
with the all-nines nonce: the nonce block followed by three keystream-xored
blocks. Used to exhibit tamper locality on a concrete ciphertext. -/
def CTR_DEMO_CT : List Nat :=
  [9, 9, 9, 9, 9, 9, 9, 9, 0, 0, 0, 0, 0, 0, 0, 0,
   234, 83, 2, 187, 17, 59, 40, 50, 190, 85, 12, 19, 50, 216, 213, 171,
   95, 124, 165, 7, 140, 119, 55, 61, 46, 186, 39, 129, 51, 50, 52, 135,
   115, 66, 170, 51, 21, 71, 205, 92, 243, 109, 228, 220, 183, 90, 32, 95]

/-! ### Xor utilities -/

theorem xor_lcomm (a b c : Nat) : a ^^^ (b ^^^ c) = b ^^^ (a ^^^ c) := by
  rw [← Nat.xor_assoc, Nat.xor_comm a b, Nat.xor_assoc]

theorem xor_xor_comm (a b c d : Nat) : (a ^^^ b) ^^^ (c ^^^ d) = (a ^^^ c) ^^^ (b ^^^ d) := by
  rw [Nat.xor_assoc, xor_lcomm b c, ← Nat.xor_assoc]

theorem xor_lt256 {a b : Nat} (ha : a < 256) (hb : b < 256) : a ^^^ b < 256 :=
  Nat.xor_lt_two_pow (n := 8) ha hb

theorem two_mul_xor (a b : Nat) : 2 * (a ^^^ b) = 2 * a ^^^ 2 * b := by
  have h := Nat.xor_bit false a false b
  simpa [Nat.bit_val] using h.symm

/-! ### GF(2^8) algebra of the AES column mixing -/

theorem testBit7_of_lt (a : Nat) (h : a < 256) :
    a.testBit 7 = decide (128 ≤ a) := by
  rcases Nat.lt_or_ge a 128 with h1 | h1
  · simp [Nat.testBit_to_div_mod, Nat.div_eq_of_lt h1, Nat.lt_irrefl]
    omega
  · have : a / 2 ^ 7 = 1 := by omega
    simp [Nat.testBit_to_div_mod, this]
    omega

theorem xtime_lt : ∀ b < 256, xtime b < 256 := by decide

theorem xtime_linear (a b : Nat) (ha : a < 256) (hb : b < 256) :
    xtime (a ^^^ b) = xtime a ^^^ xtime b := by
  have hxb : a ^^^ b < 256 := xor_lt256 ha hb
  have ht : (a ^^^ b).testBit 7 = ((a.testBit 7) ^^ (b.testBit 7)) := by
    simp [Nat.testBit_xor]
  rcases Nat.lt_or_ge a 128 with ha1 | ha1 <;> rcases Nat.lt_or_ge b 128 with hb1 | hb1
  · have : a ^^^ b < 128 := by
      have := testBit7_of_lt (a ^^^ b) hxb
      rw [ht, testBit7_of_lt a ha, testBit7_of_lt b hb] at this
      simp [Nat.not_le.mpr ha1, Nat.not_le.mpr hb1] at this
      omega
    simp [xtime, ha1, hb1, this, two_mul_xor]
  · have : ¬ (a ^^^ b < 128) := by
      have := testBit7_of_lt (a ^^^ b) hxb
      rw [ht, testBit7_of_lt a ha, testBit7_of_lt b hb] at this
      simp [Nat.not_le.mpr ha1, hb1] at this
      omega
    simp only [xtime, if_pos ha1, if_neg (Nat.not_lt.mpr hb1), if_neg this, two_mul_xor]
    rw [Nat.xor_assoc]
  · have : ¬ (a ^^^ b < 128) := by
      have := testBit7_of_lt (a ^^^ b) hxb
      rw [ht, testBit7_of_lt a ha, testBit7_of_lt b hb] at this
      simp [Nat.not_le.mpr hb1, ha1] at this
      omega
    simp only [xtime, if_neg (Nat.not_lt.mpr ha1), if_pos hb1, if_neg this, two_mul_xor]
    rw [Nat.xor_assoc, Nat.xor_assoc, Nat.xor_comm (2 * b) 283]
  · have : a ^^^ b < 128 := by
      have := testBit7_of_lt (a ^^^ b) hxb
      rw [ht, testBit7_of_lt a ha, testBit7_of_lt b hb] at this
      simp [ha1, hb1] at this
      omega
    simp only [xtime, if_neg (Nat.not_lt.mpr ha1), if_neg (Nat.not_lt.mpr hb1), if_pos this,
      two_mul_xor]
    rw [Nat.xor_assoc, xor_lcomm 283, ← Nat.xor_assoc, Nat.xor_assoc (2 * a)]
    simp

theorem xtime2_linear {a b : Nat} (ha : a < 256) (hb : b < 256) :
    xtime (xtime (a ^^^ b)) = xtime (xtime a) ^^^ xtime (xtime b) := by
  rw [xtime_linear a b ha hb, xtime_linear _ _ (xtime_lt a ha) (xtime_lt b hb)]

theorem xtime3_linear {a b : Nat} (ha : a < 256) (hb : b < 256) :
    xtime (xtime (xtime (a ^^^ b))) =
      xtime (xtime (xtime a)) ^^^ xtime (xtime (xtime b)) := by
  rw [xtime2_linear ha hb,
    xtime_linear _ _ (xtime_lt _ (xtime_lt a ha)) (xtime_lt _ (xtime_lt b hb))]

theorem muls_lt : ∀ b < 256, mul2 b < 256 ∧ mul3 b < 256 ∧ mul9 b < 256 ∧
    mul11 b < 256 ∧ mul13 b < 256 ∧ mul14 b < 256 := by decide

theorem mul2_linear {a b : Nat} (ha : a < 256) (hb : b < 256) :
    mul2 (a ^^^ b) = mul2 a ^^^ mul2 b := xtime_linear a b ha hb

theorem mul3_linear {a b : Nat} (ha : a < 256) (hb : b < 256) :
    mul3 (a ^^^ b) = mul3 a ^^^ mul3 b := by
  unfold mul3
  rw [xtime_linear a b ha hb, xor_xor_comm]

theorem mul9_linear {a b : Nat} (ha : a < 256) (hb : b < 256) :
    mul9 (a ^^^ b) = mul9 a ^^^ mul9 b := by
  unfold mul9
  rw [xtime3_linear ha hb, xor_xor_comm]

theorem mul11_linear {a b : Nat} (ha : a < 256) (hb : b < 256) :
    mul11 (a ^^^ b) = mul11 a ^^^ mul11 b := by
  unfold mul11
  rw [xtime3_linear ha hb, xtime_linear a b ha hb,
    xor_xor_comm (xtime (xtime (xtime a))), xor_xor_comm]

theorem mul13_linear {a b : Nat} (ha : a < 256) (hb : b < 256) :
    mul13 (a ^^^ b) = mul13 a ^^^ mul13 b := by
  unfold mul13
  rw [xtime3_linear ha hb, xtime2_linear ha hb,
    xor_xor_comm (xtime (xtime (xtime a))), xor_xor_comm]

theorem mul14_linear {a b : Nat} (ha : a < 256) (hb : b < 256) :
    mul14 (a ^^^ b) = mul14 a ^^^ mul14 b := by
  unfold mul14
  rw [xtime3_linear ha hb, xtime2_linear ha hb, xtime_linear a b ha hb,
    xor_xor_comm (xtime (xtime (xtime a))), xor_xor_comm]

theorem xor_riffle4 (a1 a2 b1 b2 c1 c2 d1 d2 : Nat) :
    (((a1 ^^^ a2) ^^^ (b1 ^^^ b2)) ^^^ (c1 ^^^ c2)) ^^^ (d1 ^^^ d2) =
      (((a1 ^^^ b1) ^^^ c1) ^^^ d1) ^^^ (((a2 ^^^ b2) ^^^ c2) ^^^ d2) := by
  rw [xor_xor_comm a1 a2 b1 b2, xor_xor_comm (a1 ^^^ b1) (a2 ^^^ b2) c1 c2,
    xor_xor_comm ((a1 ^^^ b1) ^^^ c1) ((a2 ^^^ b2) ^^^ c2) d1 d2]

theorem mixCol_xor (x1 x2 x3 x4 y1 y2 y3 y4 : Nat)
    (hx1 : x1 < 256) (hx2 : x2 < 256) (hx3 : x3 < 256) (hx4 : x4 < 256)
    (hy1 : y1 < 256) (hy2 : y2 < 256) (hy3 : y3 < 256) (hy4 : y4 < 256) :
    mixCol (x1 ^^^ y1) (x2 ^^^ y2) (x3 ^^^ y3) (x4 ^^^ y4) =
      xor_block (mixCol x1 x2 x3 x4) (mixCol y1 y2 y3 y4) := by
  simp only [mixCol, xor_block, List.zipWith, List.cons.injEq, and_true]
  exact ⟨by rw [mul2_linear hx1 hy1, mul3_linear hx2 hy2, xor_riffle4],
    by rw [mul2_linear hx2 hy2, mul3_linear hx3 hy3, xor_riffle4],
    by rw [mul2_linear hx3 hy3, mul3_linear hx4 hy4, xor_riffle4],
    by rw [mul3_linear hx1 hy1, mul2_linear hx4 hy4, xor_riffle4]⟩

theorem invMixCol_xor (x1 x2 x3 x4 y1 y2 y3 y4 : Nat)
    (hx1 : x1 < 256) (hx2 : x2 < 256) (hx3 : x3 < 256) (hx4 : x4 < 256)
    (hy1 : y1 < 256) (hy2 : y2 < 256) (hy3 : y3 < 256) (hy4 : y4 < 256) :
    invMixCol (x1 ^^^ y1) (x2 ^^^ y2) (x3 ^^^ y3) (x4 ^^^ y4) =
      xor_block (invMixCol x1 x2 x3 x4) (invMixCol y1 y2 y3 y4) := by
  simp only [invMixCol, xor_block, List.zipWith, List.cons.injEq, and_true]
  exact ⟨by rw [mul14_linear hx1 hy1, mul11_linear hx2 hy2, mul13_linear hx3 hy3,
      mul9_linear hx4 hy4, xor_riffle4],
    by rw [mul9_linear hx1 hy1, mul14_linear hx2 hy2, mul11_linear hx3 hy3,
      mul13_linear hx4 hy4, xor_riffle4],
    by rw [mul13_linear hx1 hy1, mul9_linear hx2 hy2, mul14_linear hx3 hy3,
      mul11_linear hx4 hy4, xor_riffle4],
    by rw [mul11_linear hx1 hy1, mul13_linear hx2 hy2, mul9_linear hx3 hy3,
      mul14_linear hx4 hy4, xor_riffle4]⟩

theorem invMix_mix_basis0 : ∀ t, t < 256 → invMixCol (mul2 t) t t (mul3 t) = [t, 0, 0, 0] := by
  decide

theorem invMix_mix_basis1 : ∀ t, t < 256 → invMixCol (mul3 t) (mul2 t) t t = [0, t, 0, 0] := by
  decide

theorem invMix_mix_basis2 : ∀ t, t < 256 → invMixCol t (mul3 t) (mul2 t) t = [0, 0, t, 0] := by
  decide

theorem invMix_mix_basis3 : ∀ t, t < 256 → invMixCol t t (mul3 t) (mul2 t) = [0, 0, 0, t] := by
  decide

theorem mix_invMix_basis0 : ∀ t, t < 256 →
    mixCol (mul14 t) (mul9 t) (mul13 t) (mul11 t) = [t, 0, 0, 0] := by decide

theorem mix_invMix_basis1 : ∀ t, t < 256 →
    mixCol (mul11 t) (mul14 t) (mul9 t) (mul13 t) = [0, t, 0, 0] := by decide

theorem mix_invMix_basis2 : ∀ t, t < 256 →
    mixCol (mul13 t) (mul11 t) (mul14 t) (mul9 t) = [0, 0, t, 0] := by decide

theorem mix_invMix_basis3 : ∀ t, t < 256 →
    mixCol (mul9 t) (mul13 t) (mul11 t) (mul14 t) = [0, 0, 0, t] := by decide

theorem invMixCol_mixCol (a b c d : Nat)
    (ha : a < 256) (hb : b < 256) (hc : c < 256) (hd : d < 256) :
    invMixCol (mul2 a ^^^ mul3 b ^^^ c ^^^ d) (a ^^^ mul2 b ^^^ mul3 c ^^^ d)
      (a ^^^ b ^^^ mul2 c ^^^ mul3 d) (mul3 a ^^^ b ^^^ c ^^^ mul2 d) = [a, b, c, d] := by
  have h2a := (muls_lt a ha).1
  have h3a := (muls_lt a ha).2.1
  have h2b := (muls_lt b hb).1
  have h3b := (muls_lt b hb).2.1
  have h2c := (muls_lt c hc).1
  have h3c := (muls_lt c hc).2.1
  have h2d := (muls_lt d hd).1
  have h3d := (muls_lt d hd).2.1
  simp only [Nat.xor_assoc]
  rw [invMixCol_xor _ _ _ _ _ _ _ _ h2a ha ha h3a
      (xor_lt256 h3b (xor_lt256 hc hd)) (xor_lt256 h2b (xor_lt256 h3c hd))
      (xor_lt256 hb (xor_lt256 h2c h3d)) (xor_lt256 hb (xor_lt256 hc h2d)),
    invMixCol_xor _ _ _ _ _ _ _ _ h3b h2b hb hb
      (xor_lt256 hc hd) (xor_lt256 h3c hd) (xor_lt256 h2c h3d) (xor_lt256 hc h2d),
    invMixCol_xor _ _ _ _ _ _ _ _ hc h3c h2c hc hd hd h3d h2d,
    invMix_mix_basis0 a ha, invMix_mix_basis1 b hb, invMix_mix_basis2 c hc,
    invMix_mix_basis3 d hd]
  simp [xor_block]

theorem mixCol_invMixCol (a b c d : Nat)
    (ha : a < 256) (hb : b < 256) (hc : c < 256) (hd : d < 256) :
    mixCol (mul14 a ^^^ mul11 b ^^^ mul13 c ^^^ mul9 d)
      (mul9 a ^^^ mul14 b ^^^ mul11 c ^^^ mul13 d)
      (mul13 a ^^^ mul9 b ^^^ mul14 c ^^^ mul11 d)
      (mul11 a ^^^ mul13 b ^^^ mul9 c ^^^ mul14 d) = [a, b, c, d] := by
  have h9a := (muls_lt a ha).2.2.1
  have h11a := (muls_lt a ha).2.2.2.1
  have h13a := (muls_lt a ha).2.2.2.2.1
  have h14a := (muls_lt a ha).2.2.2.2.2
  have h9b := (muls_lt b hb).2.2.1
  have h11b := (muls_lt b hb).2.2.2.1
  have h13b := (muls_lt b hb).2.2.2.2.1
  have h14b := (muls_lt b hb).2.2.2.2.2
  have h9c := (muls_lt c hc).2.2.1
  have h11c := (muls_lt c hc).2.2.2.1
  have h13c := (muls_lt c hc).2.2.2.2.1
  have h14c := (muls_lt c hc).2.2.2.2.2
  have h9d := (muls_lt d hd).2.2.1
  have h11d := (muls_lt d hd).2.2.2.1
  have h13d := (muls_lt d hd).2.2.2.2.1
  have h14d := (muls_lt d hd).2.2.2.2.2
  simp only [Nat.xor_assoc]
  rw [mixCol_xor _ _ _ _ _ _ _ _ h14a h9a h13a h11a
      (xor_lt256 h11b (xor_lt256 h13c h9d)) (xor_lt256 h14b (xor_lt256 h11c h13d))
      (xor_lt256 h9b (xor_lt256 h14c h11d)) (xor_lt256 h13b (xor_lt256 h9c h14d)),
    mixCol_xor _ _ _ _ _ _ _ _ h11b h14b h9b h13b
      (xor_lt256 h13c h9d) (xor_lt256 h11c h13d) (xor_lt256 h14c h11d) (xor_lt256 h9c h14d),
    mixCol_xor _ _ _ _ _ _ _ _ h13c h11c h14c h9c h9d h13d h11d h14d,
    mix_invMix_basis0 a ha, mix_invMix_basis1 b hb, mix_invMix_basis2 c hc,
    mix_invMix_basis3 d hd]
  simp [xor_block]

/-! ### List utilities -/

theorem exists_len4 (s : List Nat) (h : s.length = 4) :
    ∃ b0 b1 b2 b3, s = [b0, b1, b2, b3] := by
  match s, h with
  | [b0, b1, b2, b3], _ => exact ⟨b0, b1, b2, b3, rfl⟩

theorem exists_len16 (s : List Nat) (h : s.length = 16) :
    ∃ b0 b1 b2 b3 b4 b5 b6 b7 b8 b9 b10 b11 b12 b13 b14 b15,
      s = [b0, b1, b2, b3, b4, b5, b6, b7, b8, b9, b10, b11, b12, b13, b14, b15] := by
  match s, h with
  | [b0, b1, b2, b3, b4, b5, b6, b7, b8, b9, b10, b11, b12, b13, b14, b15], _ =>
    exact ⟨b0, b1, b2, b3, b4, b5, b6, b7, b8, b9, b10, b11, b12, b13, b14, b15, rfl⟩

theorem getD_mem_of_lt {α : Type} (l : List α) (d : α) (i : Nat) (h : i < l.length) :
    l.getD i d ∈ l := by
  rw [List.getD_eq_getElem l d h]
  exact List.getElem_mem h

theorem zipWith_xor_lt (a : List Nat) : ∀ b : List Nat, (∀ v ∈ a, v < 256) →
    (∀ v ∈ b, v < 256) → ∀ v ∈ List.zipWith (fun x y => x ^^^ y) a b, v < 256 := by
  induction a with
  | nil => intro b _ _ v hv; simp at hv
  | cons x xs ih =>
      intro b ha hb v hv
      cases b with
      | nil => simp at hv
      | cons y ys =>
          simp only [List.zipWith_cons_cons, List.mem_cons] at hv
          rcases hv with rfl | hv
          · exact xor_lt256 (ha x (by simp)) (hb y (by simp))
          · exact ih ys (fun v hv => ha v (by simp [hv])) (fun v hv => hb v (by simp [hv])) v hv

theorem zipWith_xor_cancel : ∀ (s k : List Nat), s.length ≤ k.length →
    List.zipWith (fun x y => x ^^^ y) (List.zipWith (fun x y => x ^^^ y) s k) k = s := by
  intro s
  induction s with
  | nil => intro k _; simp
  | cons x xs ih =>
      intro k hlen
      cases k with
      | nil => simp at hlen
      | cons y ys =>
          simp only [List.zipWith_cons_cons, List.cons.injEq]
          exact ⟨Nat.xor_cancel_right _ _, ih ys (by simpa using hlen)⟩

theorem flatten_length4 : ∀ ws : List (List Nat), (∀ w ∈ ws, w.length = 4) →
    ws.flatten.length = 4 * ws.length := by
  intro ws
  induction ws with
  | nil => simp
  | cons w t ih =>
      intro h
      simp only [List.flatten_cons, List.length_append, List.length_cons,
        h w (by simp), ih (fun w hw => h w (by simp [hw]))]
      ring

/-! ### S-box and round-constant facts -/

theorem sbox_invSbox : ∀ b < 256, invSbox (sbox b) = b := by decide

theorem invSbox_sbox : ∀ b < 256, sbox (invSbox b) = b := by decide

theorem sbox_lt_aux : ∀ b < 256, sbox b < 256 := by decide

theorem sbox_lt (b : Nat) : sbox b < 256 := by
  rcases Nat.lt_or_ge b 256 with h | h
  · exact sbox_lt_aux b h
  · unfold sbox
    rw [List.getD_eq_default _ _ (by
      have hlen : SBOX.length = 256 := by decide
      omega)]
    norm_num

theorem invSbox_lt_aux : ∀ b < 256, invSbox b < 256 := by decide

theorem invSbox_lt (b : Nat) : invSbox b < 256 := by
  rcases Nat.lt_or_ge b 256 with h | h
  · exact invSbox_lt_aux b h
  · unfold invSbox
    rw [List.getD_eq_default _ _ (by
      have hlen : INV_SBOX.length = 256 := by decide
      omega)]
    norm_num

theorem RCON_lt_aux : ∀ i < 11, RCON.getD i 0 < 256 := by decide

theorem RCON_lt (i : Nat) : RCON.getD i 0 < 256 := by
  rcases Nat.lt_or_ge i 11 with h | h
  · exact RCON_lt_aux i h
  · rw [List.getD_eq_default _ _ (by
      have hlen : RCON.length = 11 := by decide
      omega)]
    norm_num

/-! ### SubBytes and ShiftRows state lemmas -/

theorem subBytes_length (s : List Nat) : (subBytes s).length = s.length := by
  simp [subBytes]

theorem invSubBytes_length (s : List Nat) : (invSubBytes s).length = s.length := by
  simp [invSubBytes]

theorem subBytes_lt (s : List Nat) : ∀ v ∈ subBytes s, v < 256 := by
  intro v hv
  obtain ⟨w, _, rfl⟩ := List.mem_map.mp hv
  exact sbox_lt w

theorem invSubBytes_lt (s : List Nat) : ∀ v ∈ invSubBytes s, v < 256 := by
  intro v hv
  obtain ⟨w, _, rfl⟩ := List.mem_map.mp hv
  exact invSbox_lt w

theorem invSubBytes_subBytes (s : List Nat) (h : ∀ v ∈ s, v < 256) :
    invSubBytes (subBytes s) = s := by
  induction s with
  | nil => rfl
  | cons a t ih =>
      simp only [subBytes, invSubBytes, List.map_cons, List.cons.injEq] at ih ⊢
      exact ⟨sbox_invSbox a (h a (by simp)), ih (fun v hv => h v (by simp [hv]))⟩

theorem subBytes_invSubBytes (s : List Nat) (h : ∀ v ∈ s, v < 256) :
    subBytes (invSubBytes s) = s := by
  induction s with
  | nil => rfl
  | cons a t ih =>
      simp only [subBytes, invSubBytes, List.map_cons, List.cons.injEq] at ih ⊢
      exact ⟨invSbox_sbox a (h a (by simp)), ih (fun v hv => h v (by simp [hv]))⟩

theorem invShiftRows_shiftRows (s : List Nat) (h : s.length = 16) :
    invShiftRows (shiftRows s) = s := by
  obtain ⟨b0, b1, b2, b3, b4, b5, b6, b7, b8, b9, b10, b11, b12, b13, b14, b15, rfl⟩ :=
    exists_len16 s h
  rfl

theorem shiftRows_invShiftRows (s : List Nat) (h : s.length = 16) :
    shiftRows (invShiftRows s) = s := by
  obtain ⟨b0, b1, b2, b3, b4, b5, b6, b7, b8, b9, b10, b11, b12, b13, b14, b15, rfl⟩ :=
    exists_len16 s h
  rfl

theorem shiftRows_length (s : List Nat) (h : s.length = 16) : (shiftRows s).length = 16 := by
  obtain ⟨b0, b1, b2, b3, b4, b5, b6, b7, b8, b9, b10, b11, b12, b13, b14, b15, rfl⟩ :=
    exists_len16 s h
  rfl

theorem invShiftRows_length (s : List Nat) (h : s.length = 16) :
    (invShiftRows s).length = 16 := by
  obtain ⟨b0, b1, b2, b3, b4, b5, b6, b7, b8, b9, b10, b11, b12, b13, b14, b15, rfl⟩ :=
    exists_len16 s h
  rfl

theorem shiftRows_lt (s : List Nat) (h : s.length = 16) (hb : ∀ v ∈ s, v < 256) :
    ∀ v ∈ shiftRows s, v < 256 := by
  obtain ⟨b0, b1, b2, b3, b4, b5, b6, b7, b8, b9, b10, b11, b12, b13, b14, b15, rfl⟩ :=
    exists_len16 s h
  simp only [List.forall_mem_cons] at hb
  obtain ⟨h0, h1, h2, h3, h4, h5, h6, h7, h8, h9, h10, h11, h12, h13, h14, h15, -⟩ := hb
  simp only [shiftRows, List.forall_mem_cons]
  exact ⟨h0, h5, h10, h15, h4, h9, h14, h3, h8, h13, h2, h7, h12, h1, h6, h11,
    List.forall_mem_nil _⟩

theorem invShiftRows_lt (s : List Nat) (h : s.length = 16) (hb : ∀ v ∈ s, v < 256) :
    ∀ v ∈ invShiftRows s, v < 256 := by
  obtain ⟨b0, b1, b2, b3, b4, b5, b6, b7, b8, b9, b10, b11, b12, b13, b14, b15, rfl⟩ :=
    exists_len16 s h
  simp only [List.forall_mem_cons] at hb
  obtain ⟨h0, h1, h2, h3, h4, h5, h6, h7, h8, h9, h10, h11, h12, h13, h14, h15, -⟩ := hb
  simp only [invShiftRows, List.forall_mem_cons]
  exact ⟨h0, h13, h10, h7, h4, h1, h14, h11, h8, h5, h2, h15, h12, h9, h6, h3,
    List.forall_mem_nil _⟩

/-! ### MixColumns state lemmas -/

theorem mixColumns_length (s : List Nat) (h : s.length = 16) :
    (mixColumns s).length = 16 := by
  obtain ⟨b0, b1, b2, b3, b4, b5, b6, b7, b8, b9, b10, b11, b12, b13, b14, b15, rfl⟩ :=
    exists_len16 s h
  rfl

theorem invMixColumns_length (s : List Nat) (h : s.length = 16) :
    (invMixColumns s).length = 16 := by
  obtain ⟨b0, b1, b2, b3, b4, b5, b6, b7, b8, b9, b10, b11, b12, b13, b14, b15, rfl⟩ :=
    exists_len16 s h
  rfl

theorem mixCol_lt (a b c d : Nat) (ha : a < 256) (hb : b < 256) (hc : c < 256) (hd : d < 256) :
    ∀ v ∈ mixCol a b c d, v < 256 := by
  simp only [mixCol, List.forall_mem_cons]
  refine ⟨?_, ?_, ?_, ?_, List.forall_mem_nil _⟩
  · exact xor_lt256 (xor_lt256 (xor_lt256 (muls_lt a ha).1 (muls_lt b hb).2.1) hc) hd
  · exact xor_lt256 (xor_lt256 (xor_lt256 ha (muls_lt b hb).1) (muls_lt c hc).2.1) hd
  · exact xor_lt256 (xor_lt256 (xor_lt256 ha hb) (muls_lt c hc).1) (muls_lt d hd).2.1
  · exact xor_lt256 (xor_lt256 (xor_lt256 (muls_lt a ha).2.1 hb) hc) (muls_lt d hd).1

theorem invMixCol_lt (a b c d : Nat)
    (ha : a < 256) (hb : b < 256) (hc : c < 256) (hd : d < 256) :
    ∀ v ∈ invMixCol a b c d, v < 256 := by
  simp only [invMixCol, List.forall_mem_cons]
  refine ⟨?_, ?_, ?_, ?_, List.forall_mem_nil _⟩
  · exact xor_lt256 (xor_lt256 (xor_lt256 (muls_lt a ha).2.2.2.2.2
      (muls_lt b hb).2.2.2.1) (muls_lt c hc).2.2.2.2.1) (muls_lt d hd).2.2.1
  · exact xor_lt256 (xor_lt256 (xor_lt256 (muls_lt a ha).2.2.1
      (muls_lt b hb).2.2.2.2.2) (muls_lt c hc).2.2.2.1) (muls_lt d hd).2.2.2.2.1
  · exact xor_lt256 (xor_lt256 (xor_lt256 (muls_lt a ha).2.2.2.2.1
      (muls_lt b hb).2.2.1) (muls_lt c hc).2.2.2.2.2) (muls_lt d hd).2.2.2.1
  · exact xor_lt256 (xor_lt256 (xor_lt256 (muls_lt a ha).2.2.2.1
      (muls_lt b hb).2.2.2.2.1) (muls_lt c hc).2.2.1) (muls_lt d hd).2.2.2.2.2

theorem mixColumns_lt (s : List Nat) (h : s.length = 16) (hb : ∀ v ∈ s, v < 256) :
    ∀ v ∈ mixColumns s, v < 256 := by
  obtain ⟨b0, b1, b2, b3, b4, b5, b6, b7, b8, b9, b10, b11, b12, b13, b14, b15, rfl⟩ :=
    exists_len16 s h
  simp only [List.forall_mem_cons] at hb
  obtain ⟨h0, h1, h2, h3, h4, h5, h6, h7, h8, h9, h10, h11, h12, h13, h14, h15, -⟩ := hb
  intro v hv
  simp only [mixColumns, List.mem_append] at hv
  rcases hv with ((hv | hv) | hv) | hv
  · exact mixCol_lt b0 b1 b2 b3 h0 h1 h2 h3 v hv
  · exact mixCol_lt b4 b5 b6 b7 h4 h5 h6 h7 v hv
  · exact mixCol_lt b8 b9 b10 b11 h8 h9 h10 h11 v hv
  · exact mixCol_lt b12 b13 b14 b15 h12 h13 h14 h15 v hv

theorem invMixColumns_lt (s : List Nat) (h : s.length = 16) (hb : ∀ v ∈ s, v < 256) :
    ∀ v ∈ invMixColumns s, v < 256 := by
  obtain ⟨b0, b1, b2, b3, b4, b5, b6, b7, b8, b9, b10, b11, b12, b13, b14, b15, rfl⟩ :=
    exists_len16 s h
  simp only [List.forall_mem_cons] at hb
  obtain ⟨h0, h1, h2, h3, h4, h5, h6, h7, h8, h9, h10, h11, h12, h13, h14, h15, -⟩ := hb
  intro v hv
  simp only [invMixColumns, List.mem_append] at hv
  rcases hv with ((hv | hv) | hv) | hv
  · exact invMixCol_lt b0 b1 b2 b3 h0 h1 h2 h3 v hv
  · exact invMixCol_lt b4 b5 b6 b7 h4 h5 h6 h7 v hv
  · exact invMixCol_lt b8 b9 b10 b11 h8 h9 h10 h11 v hv
  · exact invMixCol_lt b12 b13 b14 b15 h12 h13 h14 h15 v hv

theorem invMixColumns_mixColumns (s : List Nat) (h : s.length = 16)
    (hb : ∀ v ∈ s, v < 256) : invMixColumns (mixColumns s) = s := by
  obtain ⟨b0, b1, b2, b3, b4, b5, b6, b7, b8, b9, b10, b11, b12, b13, b14, b15, rfl⟩ :=
    exists_len16 s h
  simp only [List.forall_mem_cons] at hb
  obtain ⟨h0, h1, h2, h3, h4, h5, h6, h7, h8, h9, h10, h11, h12, h13, h14, h15, -⟩ := hb
  show invMixColumns (mixCol b0 b1 b2 b3 ++ mixCol b4 b5 b6 b7 ++
    mixCol b8 b9 b10 b11 ++ mixCol b12 b13 b14 b15) = _
  simp only [mixCol, List.cons_append, List.nil_append, invMixColumns]
  rw [invMixCol_mixCol b0 b1 b2 b3 h0 h1 h2 h3, invMixCol_mixCol b4 b5 b6 b7 h4 h5 h6 h7,
    invMixCol_mixCol b8 b9 b10 b11 h8 h9 h10 h11,
    invMixCol_mixCol b12 b13 b14 b15 h12 h13 h14 h15]
  rfl

theorem mixColumns_invMixColumns (s : List Nat) (h : s.length = 16)
    (hb : ∀ v ∈ s, v < 256) : mixColumns (invMixColumns s) = s := by
  obtain ⟨b0, b1, b2, b3, b4, b5, b6, b7, b8, b9, b10, b11, b12, b13, b14, b15, rfl⟩ :=
    exists_len16 s h
  simp only [List.forall_mem_cons] at hb
  obtain ⟨h0, h1, h2, h3, h4, h5, h6, h7, h8, h9, h10, h11, h12, h13, h14, h15, -⟩ := hb
  show mixColumns (invMixCol b0 b1 b2 b3 ++ invMixCol b4 b5 b6 b7 ++
    invMixCol b8 b9 b10 b11 ++ invMixCol b12 b13 b14 b15) = _
  simp only [invMixCol, List.cons_append, List.nil_append, mixColumns]
  rw [mixCol_invMixCol b0 b1 b2 b3 h0 h1 h2 h3, mixCol_invMixCol b4 b5 b6 b7 h4 h5 h6 h7,
    mixCol_invMixCol b8 b9 b10 b11 h8 h9 h10 h11,
    mixCol_invMixCol b12 b13 b14 b15 h12 h13 h14 h15]
  rfl

/-! ### AddRoundKey state lemmas -/

theorem addRoundKey_length (rk s : List Nat) :
    (addRoundKey rk s).length = min s.length rk.length := by
  simp [addRoundKey]

theorem addRoundKey_lt (rk s : List Nat) (hrk : ∀ v ∈ rk, v < 256)
    (hs : ∀ v ∈ s, v < 256) : ∀ v ∈ addRoundKey rk s, v < 256 :=
  zipWith_xor_lt s rk hs hrk

theorem addRoundKey_addRoundKey (rk s : List Nat) (h : s.length ≤ rk.length) :
    addRoundKey rk (addRoundKey rk s) = s :=
  zipWith_xor_cancel s rk h

/-! ### Key schedule validity -/

theorem foldl_grow_inv {α : Type} (step : List (List Nat) → α → List (List Nat))
    (P : List Nat → Prop)
    (hstep : ∀ ws a, 4 ≤ ws.length → (∀ w ∈ ws, P w) →
      (step ws a).length = ws.length + 1 ∧ ∀ w ∈ step ws a, P w) :
    ∀ (l : List α) (ws : List (List Nat)), 4 ≤ ws.length → (∀ w ∈ ws, P w) →
      (l.foldl step ws).length = ws.length + l.length ∧ ∀ w ∈ l.foldl step ws, P w := by
  intro l
  induction l with
  | nil => intro ws _ hP; exact ⟨by simp, hP⟩
  | cons a t ih =>
      intro ws h4 hP
      obtain ⟨hlen, hP'⟩ := hstep ws a h4 hP
      obtain ⟨ihl, ihP⟩ := ih (step ws a) (by omega) hP'
      refine ⟨?_, ihP⟩
      simp only [List.foldl_cons, ihl, hlen, List.length_cons]
      omega

theorem wordP_rotWord (w : List Nat) (h : w.length = 4 ∧ ∀ v ∈ w, v < 256) :
    (rotWord w).length = 4 ∧ ∀ v ∈ rotWord w, v < 256 := by
  obtain ⟨a, b, c, d, rfl⟩ := exists_len4 w h.1
  have hb := h.2
  simp only [List.forall_mem_cons] at hb
  obtain ⟨ha, hbb, hc, hd, -⟩ := hb
  refine ⟨rfl, ?_⟩
  simp only [rotWord, List.forall_mem_cons]
  exact ⟨hbb, hc, hd, ha, List.forall_mem_nil _⟩

theorem wordP_subWord (w : List Nat) (h : w.length = 4 ∧ ∀ v ∈ w, v < 256) :
    (subWord w).length = 4 ∧ ∀ v ∈ subWord w, v < 256 := by
  refine ⟨by simp [subWord, h.1], ?_⟩
  intro v hv
  obtain ⟨u, _, rfl⟩ := List.mem_map.mp hv
  exact sbox_lt u

theorem wordP_wordXor (a b : List Nat) (ha : a.length = 4 ∧ ∀ v ∈ a, v < 256)
    (hb : b.length = 4 ∧ ∀ v ∈ b, v < 256) :
    (wordXor a b).length = 4 ∧ ∀ v ∈ wordXor a b, v < 256 := by
  refine ⟨by simp [wordXor, ha.1, hb.1], ?_⟩
  exact zipWith_xor_lt a b ha.2 hb.2

theorem expandKey_spec (key : List Nat) (hk : key.length = 16)
    (hkb : ∀ v ∈ key, v < 256) :
    (expandKey key).length = 44 ∧
      ∀ w ∈ expandKey key, w.length = 4 ∧ ∀ v ∈ w, v < 256 := by
  have hmem16 : ∀ v ∈ key, v < 256 := hkb
  have hinit : ∀ w ∈ [key.take 4, (key.drop 4).take 4, (key.drop 8).take 4,
      (key.drop 12).take 4], w.length = 4 ∧ ∀ v ∈ w, v < 256 := by
    intro w hw
    simp only [List.mem_cons, List.mem_singleton] at hw
    rcases hw with rfl | rfl | rfl | rfl | h
    · exact ⟨by simp [hk], fun v hv => hmem16 v (List.mem_of_mem_take hv)⟩
    · exact ⟨by simp [hk], fun v hv =>
        hmem16 v (List.mem_of_mem_drop (List.mem_of_mem_take hv))⟩
    · exact ⟨by simp [hk], fun v hv =>
        hmem16 v (List.mem_of_mem_drop (List.mem_of_mem_take hv))⟩
    · exact ⟨by simp [hk], fun v hv =>
        hmem16 v (List.mem_of_mem_drop (List.mem_of_mem_take hv))⟩
    · cases h
  have hstep : ∀ (ws : List (List Nat)) (a : Nat), 4 ≤ ws.length →
      (∀ w ∈ ws, w.length = 4 ∧ ∀ v ∈ w, v < 256) →
      ((fun (ws : List (List Nat)) (_ : Nat) =>
        ws ++ [wordXor (ws.getD (ws.length - 4) [])
          (if ws.length % 4 == 0 then
            wordXor (subWord (rotWord (ws.getD (ws.length - 1) [])))
              [RCON.getD (ws.length / 4) 0, 0, 0, 0]
          else ws.getD (ws.length - 1) [])]) ws a).length = ws.length + 1 ∧
      ∀ w ∈ (fun (ws : List (List Nat)) (_ : Nat) =>
        ws ++ [wordXor (ws.getD (ws.length - 4) [])
          (if ws.length % 4 == 0 then
            wordXor (subWord (rotWord (ws.getD (ws.length - 1) [])))
              [RCON.getD (ws.length / 4) 0, 0, 0, 0]
          else ws.getD (ws.length - 1) [])]) ws a, w.length = 4 ∧ ∀ v ∈ w, v < 256 := by
    intro ws a h4 hP
    have hback : (ws.getD (ws.length - 4) []).length = 4 ∧
        ∀ v ∈ ws.getD (ws.length - 4) [], v < 256 :=
      hP _ (getD_mem_of_lt ws [] _ (by omega))
    have hprev : (ws.getD (ws.length - 1) []).length = 4 ∧
        ∀ v ∈ ws.getD (ws.length - 1) [], v < 256 :=
      hP _ (getD_mem_of_lt ws [] _ (by omega))
    have hrcon : ([RCON.getD (ws.length / 4) 0, 0, 0, 0].length = 4 ∧
        ∀ v ∈ [RCON.getD (ws.length / 4) 0, 0, 0, 0], v < 256) := by
      refine ⟨rfl, ?_⟩
      simp only [List.forall_mem_cons]
      exact ⟨RCON_lt _, by norm_num, by norm_num, by norm_num, List.forall_mem_nil _⟩
    have htemp : ((if ws.length % 4 == 0 then
        wordXor (subWord (rotWord (ws.getD (ws.length - 1) [])))
          [RCON.getD (ws.length / 4) 0, 0, 0, 0]
        else ws.getD (ws.length - 1) []).length = 4 ∧
        ∀ v ∈ (if ws.length % 4 == 0 then
          wordXor (subWord (rotWord (ws.getD (ws.length - 1) [])))
            [RCON.getD (ws.length / 4) 0, 0, 0, 0]
          else ws.getD (ws.length - 1) []), v < 256) := by
      split
      · exact wordP_wordXor _ _ (wordP_subWord _ (wordP_rotWord _ hprev)) hrcon
      · exact hprev
    constructor
    · simp
    · intro w hw
      rcases List.mem_append.mp hw with hw | hw
      · exact hP w hw
      · have : w = wordXor (ws.getD (ws.length - 4) [])
            (if ws.length % 4 == 0 then
              wordXor (subWord (rotWord (ws.getD (ws.length - 1) [])))
                [RCON.getD (ws.length / 4) 0, 0, 0, 0]
            else ws.getD (ws.length - 1) []) := by simpa using hw
        subst this
        exact wordP_wordXor _ _ hback htemp
  unfold expandKey
  have := foldl_grow_inv _ _ hstep (List.range 40)
    [key.take 4, (key.drop 4).take 4, (key.drop 8).take 4, (key.drop 12).take 4]
    (by simp) hinit
  simpa using this

theorem roundKey_length (key : List Nat) (hk : key.length = 16)
    (hkb : ∀ v ∈ key, v < 256) (i : Nat) (hi : i ≤ 10) :
    (roundKey key i).length = 16 := by
  obtain ⟨hL, hW⟩ := expandKey_spec key hk hkb
  unfold roundKey
  have htake : (((expandKey key).drop (4 * i)).take 4).length = 4 := by
    simp only [List.length_take, List.length_drop, hL]
    omega
  rw [flatten_length4 _ (fun w hw =>
    (hW w (List.mem_of_mem_drop (List.mem_of_mem_take hw))).1), htake]

theorem roundKey_lt (key : List Nat) (hk : key.length = 16)
    (hkb : ∀ v ∈ key, v < 256) (i : Nat) :
    ∀ v ∈ roundKey key i, v < 256 := by
  obtain ⟨hL, hW⟩ := expandKey_spec key hk hkb
  intro v hv
  obtain ⟨w, hw, hvw⟩ := List.mem_flatten.mp hv
  exact (hW w (List.mem_of_mem_drop (List.mem_of_mem_take hw))).2 v hvw

/-! ### AES round inversion and validity -/

theorem aes_round_inv (rk s : List Nat) (hrk : rk.length = 16)
    (hlen : s.length = 16) (hb : ∀ v ∈ s, v < 256) :
    invSubBytes (invShiftRows (invMixColumns (addRoundKey rk
      (addRoundKey rk (mixColumns (shiftRows (subBytes s))))))) = s := by
  have l1 : (subBytes s).length = 16 := by rw [subBytes_length, hlen]
  have l2 := shiftRows_length _ l1
  have l3 := mixColumns_length _ l2
  have b2 := shiftRows_lt _ l1 (subBytes_lt s)
  rw [addRoundKey_addRoundKey rk _ (by rw [l3, hrk]),
    invMixColumns_mixColumns _ l2 b2, invShiftRows_shiftRows _ l1,
    invSubBytes_subBytes s hb]

theorem aes_final_inv (rk s : List Nat) (hrk : rk.length = 16)
    (hlen : s.length = 16) (hb : ∀ v ∈ s, v < 256) :
    invSubBytes (invShiftRows (addRoundKey rk
      (addRoundKey rk (shiftRows (subBytes s))))) = s := by
  have l1 : (subBytes s).length = 16 := by rw [subBytes_length, hlen]
  have l2 := shiftRows_length _ l1
  rw [addRoundKey_addRoundKey rk _ (by rw [l2, hrk]),
    invShiftRows_shiftRows _ l1, invSubBytes_subBytes s hb]

theorem aes_round_valid (rk s : List Nat) (hrk : rk.length = 16)
    (hrkb : ∀ v ∈ rk, v < 256) (hlen : s.length = 16) (hb : ∀ v ∈ s, v < 256) :
    (addRoundKey rk (mixColumns (shiftRows (subBytes s)))).length = 16 ∧
      ∀ v ∈ addRoundKey rk (mixColumns (shiftRows (subBytes s))), v < 256 := by
  have l1 : (subBytes s).length = 16 := by rw [subBytes_length, hlen]
  have l2 := shiftRows_length _ l1
  have l3 := mixColumns_length _ l2
  have b2 := shiftRows_lt _ l1 (subBytes_lt s)
  have b3 := mixColumns_lt _ l2 b2
  exact ⟨by simp [addRoundKey_length, l3, hrk], addRoundKey_lt rk _ hrkb b3⟩

theorem aes_addkey_valid (rk s : List Nat) (hrk : rk.length = 16)
    (hrkb : ∀ v ∈ rk, v < 256) (hlen : s.length = 16) (hb : ∀ v ∈ s, v < 256) :
    (addRoundKey rk s).length = 16 ∧ ∀ v ∈ addRoundKey rk s, v < 256 :=
  ⟨by simp [addRoundKey_length, hlen, hrk], addRoundKey_lt rk s hrkb hb⟩

theorem aes_final_valid (rk s : List Nat) (hrk : rk.length = 16)
    (hrkb : ∀ v ∈ rk, v < 256) (hlen : s.length = 16) (hb : ∀ v ∈ s, v < 256) :
    (addRoundKey rk (shiftRows (subBytes s))).length = 16 ∧
      ∀ v ∈ addRoundKey rk (shiftRows (subBytes s)), v < 256 := by
  have l1 : (subBytes s).length = 16 := by rw [subBytes_length, hlen]
  have l2 := shiftRows_length _ l1
  have b2 := shiftRows_lt _ l1 (subBytes_lt s)
  exact ⟨by simp [addRoundKey_length, l2, hrk], addRoundKey_lt rk _ hrkb b2⟩

theorem aes_round_inv2 (rk t : List Nat) (hrk : rk.length = 16)
    (hrkb : ∀ v ∈ rk, v < 256) (hlen : t.length = 16) (hb : ∀ v ∈ t, v < 256) :
    addRoundKey rk (mixColumns (shiftRows (subBytes
      (invSubBytes (invShiftRows (invMixColumns (addRoundKey rk t))))))) = t := by
  have l1 : (addRoundKey rk t).length = 16 := by simp [addRoundKey_length, hlen, hrk]
  have b1 := addRoundKey_lt rk t hrkb hb
  have l2 := invMixColumns_length _ l1
  have b2 := invMixColumns_lt _ l1 b1
  have l3 := invShiftRows_length _ l2
  have b3 := invShiftRows_lt _ l2 b2
  rw [subBytes_invSubBytes _ b3, shiftRows_invShiftRows _ l2,
    mixColumns_invMixColumns _ l1 b1, addRoundKey_addRoundKey rk t (by rw [hlen, hrk])]

theorem aes_final_inv2 (rk t : List Nat) (hrk : rk.length = 16)
    (hrkb : ∀ v ∈ rk, v < 256) (hlen : t.length = 16) (hb : ∀ v ∈ t, v < 256) :
    addRoundKey rk (shiftRows (subBytes
      (invSubBytes (invShiftRows (addRoundKey rk t))))) = t := by
  have l1 : (addRoundKey rk t).length = 16 := by simp [addRoundKey_length, hlen, hrk]
  have b1 := addRoundKey_lt rk t hrkb hb
  have l2 := invShiftRows_length _ l1
  have b2 := invShiftRows_lt _ l1 b1
  rw [subBytes_invSubBytes _ b2, shiftRows_invShiftRows _ l1,
    addRoundKey_addRoundKey rk t (by rw [hlen, hrk])]

theorem aes_dec_round_valid (rk t : List Nat) (hrk : rk.length = 16)
    (hrkb : ∀ v ∈ rk, v < 256) (hlen : t.length = 16) (hb : ∀ v ∈ t, v < 256) :
    (invSubBytes (invShiftRows (invMixColumns (addRoundKey rk t)))).length = 16 ∧
      ∀ v ∈ invSubBytes (invShiftRows (invMixColumns (addRoundKey rk t))), v < 256 := by
  have l1 : (addRoundKey rk t).length = 16 := by simp [addRoundKey_length, hlen, hrk]
  have b1 := addRoundKey_lt rk t hrkb hb
  have l2 := invMixColumns_length _ l1
  have l3 := invShiftRows_length _ l2
  exact ⟨by rw [invSubBytes_length, l3], invSubBytes_lt _⟩

theorem aes_dec_final_valid (rk t : List Nat) (hrk : rk.length = 16)
    (hrkb : ∀ v ∈ rk, v < 256) (hlen : t.length = 16) (hb : ∀ v ∈ t, v < 256) :
    (invSubBytes (invShiftRows (addRoundKey rk t))).length = 16 ∧
      ∀ v ∈ invSubBytes (invShiftRows (addRoundKey rk t)), v < 256 := by
  have l1 : (addRoundKey rk t).length = 16 := by simp [addRoundKey_length, hlen, hrk]
  have l2 := invShiftRows_length _ l1
  exact ⟨by rw [invSubBytes_length, l2], invSubBytes_lt _⟩

/-! ### The AES block inverse laws -/

theorem aes_decrypt_encrypt (data key : List Nat) (hd : data.length = 16)
    (hdb : ∀ v ∈ data, v < 256) (hk : key.length = 16) (hkb : ∀ v ∈ key, v < 256) :
    aes_decrypt (aes_encrypt data key) key = data := by
  have hrkl : ∀ i, i ≤ 10 → (roundKey key i).length = 16 :=
    fun i hi => roundKey_length key hk hkb i hi
  have hrkb : ∀ i, ∀ v ∈ roundKey key i, v < 256 := roundKey_lt key hk hkb
  simp only [aes_encrypt, aes_decrypt]
  set s0 := addRoundKey (roundKey key 0) data with hs0
  set s1 := addRoundKey (roundKey key 1) (mixColumns (shiftRows (subBytes s0))) with hs1
  set s2 := addRoundKey (roundKey key 2) (mixColumns (shiftRows (subBytes s1))) with hs2
  set s3 := addRoundKey (roundKey key 3) (mixColumns (shiftRows (subBytes s2))) with hs3
  set s4 := addRoundKey (roundKey key 4) (mixColumns (shiftRows (subBytes s3))) with hs4
  set s5 := addRoundKey (roundKey key 5) (mixColumns (shiftRows (subBytes s4))) with hs5
  set s6 := addRoundKey (roundKey key 6) (mixColumns (shiftRows (subBytes s5))) with hs6
  set s7 := addRoundKey (roundKey key 7) (mixColumns (shiftRows (subBytes s6))) with hs7
  set s8 := addRoundKey (roundKey key 8) (mixColumns (shiftRows (subBytes s7))) with hs8
  set s9 := addRoundKey (roundKey key 9) (mixColumns (shiftRows (subBytes s8))) with hs9
  have v0 := aes_addkey_valid _ data (hrkl 0 (by norm_num)) (hrkb 0) hd hdb
  have v1 := aes_round_valid _ s0 (hrkl 1 (by norm_num)) (hrkb 1) v0.1 v0.2
  have v2 := aes_round_valid _ s1 (hrkl 2 (by norm_num)) (hrkb 2) v1.1 v1.2
  have v3 := aes_round_valid _ s2 (hrkl 3 (by norm_num)) (hrkb 3) v2.1 v2.2
  have v4 := aes_round_valid _ s3 (hrkl 4 (by norm_num)) (hrkb 4) v3.1 v3.2
  have v5 := aes_round_valid _ s4 (hrkl 5 (by norm_num)) (hrkb 5) v4.1 v4.2
  have v6 := aes_round_valid _ s5 (hrkl 6 (by norm_num)) (hrkb 6) v5.1 v5.2
  have v7 := aes_round_valid _ s6 (hrkl 7 (by norm_num)) (hrkb 7) v6.1 v6.2
  have v8 := aes_round_valid _ s7 (hrkl 8 (by norm_num)) (hrkb 8) v7.1 v7.2
  have v9 := aes_round_valid _ s8 (hrkl 9 (by norm_num)) (hrkb 9) v8.1 v8.2
  rw [aes_final_inv _ s9 (hrkl 10 (by norm_num)) v9.1 v9.2,
    hs9, aes_round_inv _ s8 (hrkl 9 (by norm_num)) v8.1 v8.2,
    hs8, aes_round_inv _ s7 (hrkl 8 (by norm_num)) v7.1 v7.2,
    hs7, aes_round_inv _ s6 (hrkl 7 (by norm_num)) v6.1 v6.2,
    hs6, aes_round_inv _ s5 (hrkl 6 (by norm_num)) v5.1 v5.2,
    hs5, aes_round_inv _ s4 (hrkl 5 (by norm_num)) v4.1 v4.2,
    hs4, aes_round_inv _ s3 (hrkl 4 (by norm_num)) v3.1 v3.2,
    hs3, aes_round_inv _ s2 (hrkl 3 (by norm_num)) v2.1 v2.2,
    hs2, aes_round_inv _ s1 (hrkl 2 (by norm_num)) v1.1 v1.2,
    hs1, aes_round_inv _ s0 (hrkl 1 (by norm_num)) v0.1 v0.2,
    hs0, addRoundKey_addRoundKey _ data (by rw [hd, hrkl 0 (by norm_num)])]

theorem aes_encrypt_decrypt (data key : List Nat) (hd : data.length = 16)
    (hdb : ∀ v ∈ data, v < 256) (hk : key.length = 16) (hkb : ∀ v ∈ key, v < 256) :
    aes_encrypt (aes_decrypt data key) key = data := by
  have hrkl : ∀ i, i ≤ 10 → (roundKey key i).length = 16 :=
    fun i hi => roundKey_length key hk hkb i hi
  have hrkb : ∀ i, ∀ v ∈ roundKey key i, v < 256 := roundKey_lt key hk hkb
  simp only [aes_encrypt, aes_decrypt]
  set t9 := invSubBytes (invShiftRows (addRoundKey (roundKey key 10) data)) with ht9
  set t8 := invSubBytes (invShiftRows (invMixColumns
    (addRoundKey (roundKey key 9) t9))) with ht8
  set t7 := invSubBytes (invShiftRows (invMixColumns
    (addRoundKey (roundKey key 8) t8))) with ht7
  set t6 := invSubBytes (invShiftRows (invMixColumns
    (addRoundKey (roundKey key 7) t7))) with ht6
  set t5 := invSubBytes (invShiftRows (invMixColumns
    (addRoundKey (roundKey key 6) t6))) with ht5
  set t4 := invSubBytes (invShiftRows (invMixColumns
    (addRoundKey (roundKey key 5) t5))) with ht4
  set t3 := invSubBytes (invShiftRows (invMixColumns
    (addRoundKey (roundKey key 4) t4))) with ht3
  set t2 := invSubBytes (invShiftRows (invMixColumns
    (addRoundKey (roundKey key 3) t3))) with ht2
  set t1 := invSubBytes (invShiftRows (invMixColumns
    (addRoundKey (roundKey key 2) t2))) with ht1
  set t0 := invSubBytes (invShiftRows (invMixColumns
    (addRoundKey (roundKey key 1) t1))) with ht0
  have w9 := aes_dec_final_valid _ data (hrkl 10 (by norm_num)) (hrkb 10) hd hdb
  have w8 := aes_dec_round_valid _ t9 (hrkl 9 (by norm_num)) (hrkb 9) w9.1 w9.2
  have w7 := aes_dec_round_valid _ t8 (hrkl 8 (by norm_num)) (hrkb 8) w8.1 w8.2
  have w6 := aes_dec_round_valid _ t7 (hrkl 7 (by norm_num)) (hrkb 7) w7.1 w7.2
  have w5 := aes_dec_round_valid _ t6 (hrkl 6 (by norm_num)) (hrkb 6) w6.1 w6.2
  have w4 := aes_dec_round_valid _ t5 (hrkl 5 (by norm_num)) (hrkb 5) w5.1 w5.2
  have w3 := aes_dec_round_valid _ t4 (hrkl 4 (by norm_num)) (hrkb 4) w4.1 w4.2
  have w2 := aes_dec_round_valid _ t3 (hrkl 3 (by norm_num)) (hrkb 3) w3.1 w3.2
  have w1 := aes_dec_round_valid _ t2 (hrkl 2 (by norm_num)) (hrkb 2) w2.1 w2.2
  have w0 := aes_dec_round_valid _ t1 (hrkl 1 (by norm_num)) (hrkb 1) w1.1 w1.2
  rw [addRoundKey_addRoundKey _ t0 (by rw [w0.1, hrkl 0 (by norm_num)]),
    ht0, aes_round_inv2 _ t1 (hrkl 1 (by norm_num)) (hrkb 1) w1.1 w1.2,
    ht1, aes_round_inv2 _ t2 (hrkl 2 (by norm_num)) (hrkb 2) w2.1 w2.2,
    ht2, aes_round_inv2 _ t3 (hrkl 3 (by norm_num)) (hrkb 3) w3.1 w3.2,
    ht3, aes_round_inv2 _ t4 (hrkl 4 (by norm_num)) (hrkb 4) w4.1 w4.2,
    ht4, aes_round_inv2 _ t5 (hrkl 5 (by norm_num)) (hrkb 5) w5.1 w5.2,
    ht5, aes_round_inv2 _ t6 (hrkl 6 (by norm_num)) (hrkb 6) w6.1 w6.2,
    ht6, aes_round_inv2 _ t7 (hrkl 7 (by norm_num)) (hrkb 7) w7.1 w7.2,
    ht7, aes_round_inv2 _ t8 (hrkl 8 (by norm_num)) (hrkb 8) w8.1 w8.2,
    ht8, aes_round_inv2 _ t9 (hrkl 9 (by norm_num)) (hrkb 9) w9.1 w9.2,
    ht9, aes_final_inv2 _ data (hrkl 10 (by norm_num)) (hrkb 10) hd hdb]

theorem aes_encrypt_valid (data key : List Nat) (hd : data.length = 16)
    (hdb : ∀ v ∈ data, v < 256) (hk : key.length = 16) (hkb : ∀ v ∈ key, v < 256) :
    (aes_encrypt data key).length = 16 ∧ ∀ v ∈ aes_encrypt data key, v < 256 := by
  have hrkl : ∀ i, i ≤ 10 → (roundKey key i).length = 16 :=
    fun i hi => roundKey_length key hk hkb i hi
  have hrkb : ∀ i, ∀ v ∈ roundKey key i, v < 256 := roundKey_lt key hk hkb
  simp only [aes_encrypt]
  set s0 := addRoundKey (roundKey key 0) data with hs0
  set s1 := addRoundKey (roundKey key 1) (mixColumns (shiftRows (subBytes s0))) with hs1
  set s2 := addRoundKey (roundKey key 2) (mixColumns (shiftRows (subBytes s1))) with hs2
  set s3 := addRoundKey (roundKey key 3) (mixColumns (shiftRows (subBytes s2))) with hs3
  set s4 := addRoundKey (roundKey key 4) (mixColumns (shiftRows (subBytes s3))) with hs4
  set s5 := addRoundKey (roundKey key 5) (mixColumns (shiftRows (subBytes s4))) with hs5
  set s6 := addRoundKey (roundKey key 6) (mixColumns (shiftRows (subBytes s5))) with hs6
  set s7 := addRoundKey (roundKey key 7) (mixColumns (shiftRows (subBytes s6))) with hs7
  set s8 := addRoundKey (roundKey key 8) (mixColumns (shiftRows (subBytes s7))) with hs8
  set s9 := addRoundKey (roundKey key 9) (mixColumns (shiftRows (subBytes s8))) with hs9
  have v0 := aes_addkey_valid _ data (hrkl 0 (by norm_num)) (hrkb 0) hd hdb
  have v1 := aes_round_valid _ s0 (hrkl 1 (by norm_num)) (hrkb 1) v0.1 v0.2
  have v2 := aes_round_valid _ s1 (hrkl 2 (by norm_num)) (hrkb 2) v1.1 v1.2
  have v3 := aes_round_valid _ s2 (hrkl 3 (by norm_num)) (hrkb 3) v2.1 v2.2
  have v4 := aes_round_valid _ s3 (hrkl 4 (by norm_num)) (hrkb 4) v3.1 v3.2
  have v5 := aes_round_valid _ s4 (hrkl 5 (by norm_num)) (hrkb 5) v4.1 v4.2
  have v6 := aes_round_valid _ s5 (hrkl 6 (by norm_num)) (hrkb 6) v5.1 v5.2
  have v7 := aes_round_valid _ s6 (hrkl 7 (by norm_num)) (hrkb 7) v6.1 v6.2
  have v8 := aes_round_valid _ s7 (hrkl 8 (by norm_num)) (hrkb 8) v7.1 v7.2
  have v9 := aes_round_valid _ s8 (hrkl 9 (by norm_num)) (hrkb 9) v8.1 v8.2
  exact aes_final_valid _ s9 (hrkl 10 (by norm_num)) (hrkb 10) v9.1 v9.2

theorem aes_decrypt_valid (data key : List Nat) (hd : data.length = 16)
    (hdb : ∀ v ∈ data, v < 256) (hk : key.length = 16) (hkb : ∀ v ∈ key, v < 256) :
    (aes_decrypt data key).length = 16 ∧ ∀ v ∈ aes_decrypt data key, v < 256 := by
  have hrkl : ∀ i, i ≤ 10 → (roundKey key i).length = 16 :=
    fun i hi => roundKey_length key hk hkb i hi
  have hrkb : ∀ i, ∀ v ∈ roundKey key i, v < 256 := roundKey_lt key hk hkb
  simp only [aes_decrypt]
  set t9 := invSubBytes (invShiftRows (addRoundKey (roundKey key 10) data)) with ht9
  set t8 := invSubBytes (invShiftRows (invMixColumns
    (addRoundKey (roundKey key 9) t9))) with ht8
  set t7 := invSubBytes (invShiftRows (invMixColumns
    (addRoundKey (roundKey key 8) t8))) with ht7
  set t6 := invSubBytes (invShiftRows (invMixColumns
    (addRoundKey (roundKey key 7) t7))) with ht6
  set t5 := invSubBytes (invShiftRows (invMixColumns
    (addRoundKey (roundKey key 6) t6))) with ht5
  set t4 := invSubBytes (invShiftRows (invMixColumns
    (addRoundKey (roundKey key 5) t5))) with ht4
  set t3 := invSubBytes (invShiftRows (invMixColumns
    (addRoundKey (roundKey key 4) t4))) with ht3
  set t2 := invSubBytes (invShiftRows (invMixColumns
    (addRoundKey (roundKey key 3) t3))) with ht2
  set t1 := invSubBytes (invShiftRows (invMixColumns
    (addRoundKey (roundKey key 2) t2))) with ht1
  set t0 := invSubBytes (invShiftRows (invMixColumns
    (addRoundKey (roundKey key 1) t1))) with ht0
  have w9 := aes_dec_final_valid _ data (hrkl 10 (by norm_num)) (hrkb 10) hd hdb
  have w8 := aes_dec_round_valid _ t9 (hrkl 9 (by norm_num)) (hrkb 9) w9.1 w9.2
  have w7 := aes_dec_round_valid _ t8 (hrkl 8 (by norm_num)) (hrkb 8) w8.1 w8.2
  have w6 := aes_dec_round_valid _ t7 (hrkl 7 (by norm_num)) (hrkb 7) w7.1 w7.2
  have w5 := aes_dec_round_valid _ t6 (hrkl 6 (by norm_num)) (hrkb 6) w6.1 w6.2
  have w4 := aes_dec_round_valid _ t5 (hrkl 5 (by norm_num)) (hrkb 5) w5.1 w5.2
  have w3 := aes_dec_round_valid _ t4 (hrkl 4 (by norm_num)) (hrkb 4) w4.1 w4.2
  have w2 := aes_dec_round_valid _ t3 (hrkl 3 (by norm_num)) (hrkb 3) w3.1 w3.2
  have w1 := aes_dec_round_valid _ t2 (hrkl 2 (by norm_num)) (hrkb 2) w2.1 w2.2
  have w0 := aes_dec_round_valid _ t1 (hrkl 1 (by norm_num)) (hrkb 1) w1.1 w1.2
  exact aes_addkey_valid _ t0 (hrkl 0 (by norm_num)) (hrkb 0) w0.1 w0.2

/-! ### Concrete evaluation of the repository's ECB test vector. These are
kernel computations of the model; they must precede the irreducibility
attributes below. -/

theorem ecb_test_vector_enc : ecb_encrypt PBA_MSG TEST_KEY = some PBA_CT := by decide

theorem ecb_test_vector_dec : ecb_decrypt PBA_CT TEST_KEY = some PBA_MSG := by decide

theorem ecb_test_vector_len : PBA_CT.length = 32 := by decide

theorem ecb_test_vector_hex :
    hexEncode PBA_CT =
      ("12d4105e43c4426e1f3e9455bb39c8fc0a4667637c9de8bad43ee801d313a555").toList := by
  decide

theorem ecb_demo_enc : ecb_encrypt (List.replicate 32 7) TEST_KEY = some DEMO_CT := by decide

theorem cbc_demo_enc :
    cbc_encrypt (List.replicate 16 7) (List.replicate 32 7) TEST_KEY =
      some CBC_DEMO_CT := by decide

theorem ctr_demo_enc :
    ctr_encrypt (List.replicate 8 9) (List.replicate 32 7) TEST_KEY =
      some CTR_DEMO_CT := by decide

/-! The block transform is opaque from here on: later proofs treat
`aes_encrypt` and `aes_decrypt` through the lemmas above only, and unfolding
them on symbolic arguments would blow up the elaborator. -/

attribute [irreducible] aes_encrypt aes_decrypt

/-! ### Padding engine lemmas -/

theorem pad_spec (x : List Nat) :
    pad x = x ++ List.replicate (16 - x.length % 16) (16 - x.length % 16) := rfl

theorem pad_length (x : List Nat) :
    (pad x).length = x.length + (16 - x.length % 16) := by
  simp [pad, BLOCK_SIZE]

theorem pad_lt (x : List Nat) (hb : ∀ v ∈ x, v < 256) : ∀ v ∈ pad x, v < 256 := by
  intro v hv
  rw [pad_spec] at hv
  rcases List.mem_append.mp hv with hv | hv
  · exact hb v hv
  · have := List.eq_of_mem_replicate hv
    omega

theorem pad_mod (x : List Nat) : (pad x).length % 16 = 0 := by
  rw [pad_length]
  omega

theorem un_pad_concat (y : List Nat) (m : Nat) (hm : m ≠ 0) (hlen : m ≤ y.length + 1) :
    un_pad (y ++ [m]) = (y ++ [m]).take (y.length + 1 - m) := by
  have h1 : (y ++ [m]).isEmpty = false := by simp
  have h2 : (y ++ [m]).getLastD 0 = m := List.getLastD_concat _ _ _
  have h3 : (y ++ [m]).length = y.length + 1 := by simp
  rw [un_pad, h1]
  simp only [Bool.false_eq_true, if_false, h2, h3]
  rw [if_neg (by omega)]

theorem un_pad_pad (x : List Nat) : un_pad (pad x) = x := by
  have hmod : x.length % 16 < 16 := Nat.mod_lt _ (by norm_num)
  have hn1 : 1 ≤ 16 - x.length % 16 := by omega
  have key : ∀ n : Nat, 1 ≤ n → List.replicate n n = List.replicate (n - 1) n ++ [n] := by
    intro n hn
    obtain ⟨m, rfl⟩ : ∃ m, n = m + 1 := ⟨n - 1, by omega⟩
    rw [List.replicate_succ']
    simp
  have hpad : pad x = (x ++ List.replicate (16 - x.length % 16 - 1) (16 - x.length % 16)) ++
      [16 - x.length % 16] := by
    rw [pad_spec, key _ hn1, ← List.append_assoc]
  rw [hpad, un_pad_concat _ _ (by omega) (by simp; omega)]
  have hlen : (x ++ List.replicate (16 - x.length % 16 - 1) (16 - x.length % 16)).length + 1 -
      (16 - x.length % 16) = x.length := by
    simp
    omega
  rw [hlen, List.append_assoc]
  exact List.take_left x _

/-! ### Block grouper lemmas -/

theorem groupGo_nil (fuel : Nat) : groupGo fuel [] = some [] := by
  cases fuel <;> rfl

theorem groupGo_join : ∀ (bs : List (List Nat)) (fuel : Nat),
    (∀ b ∈ bs, b.length = 16) → bs.flatten.length ≤ fuel →
    groupGo fuel bs.flatten = some bs := by
  intro bs
  induction bs with
  | nil => intro fuel _ _; exact groupGo_nil fuel
  | cons b bs ih =>
      intro fuel hlen hfuel
      have hb : b.length = 16 := hlen b (by simp)
      have hflat : (b :: bs).flatten.length = 16 + bs.flatten.length := by
        simp [hb]
      obtain ⟨hd, tl, rfl⟩ : ∃ hd tl, b = hd :: tl := by
        cases b with
        | nil => simp at hb
        | cons hd tl => exact ⟨hd, tl, rfl⟩
      obtain ⟨f, rfl⟩ : ∃ f, fuel = f + 1 := by
        cases fuel with
        | zero => omega
        | succ f => exact ⟨f, rfl⟩
      have hcons : (hd :: tl) ++ bs.flatten = hd :: (tl ++ bs.flatten) := rfl
      show groupGo (f + 1) ((hd :: tl) ++ bs.flatten) = _
      rw [hcons]
      simp only [groupGo, BLOCK_SIZE]
      rw [if_neg (by
        simp only [List.length_cons, List.length_append]
        have : tl.length = 15 := by simpa using hb
        omega)]
      rw [← hcons, show (16 : Nat) = ((hd :: tl) : List Nat).length from hb.symm,
        List.drop_left, List.take_left]
      rw [ih f (fun b hbb => hlen b (List.mem_cons_of_mem _ hbb)) (by
        rw [hflat] at hfuel
        omega)]
      rfl

theorem group_join (bs : List (List Nat)) (h : ∀ b ∈ bs, b.length = 16) :
    group bs.flatten = some bs :=
  groupGo_join bs _ h le_rfl

theorem groupGo_none : ∀ (fuel : Nat) (d : List Nat), d.length ≤ fuel →
    d.length % 16 ≠ 0 → groupGo fuel d = none := by
  intro fuel
  induction fuel with
  | zero =>
      intro d hle hmod
      omega
  | succ f ih =>
      intro d hle hmod
      cases d with
      | nil => simp at hmod
      | cons a t =>
          simp only [groupGo, BLOCK_SIZE]
          by_cases hlt : (a :: t).length < 16
          · rw [if_pos hlt]
          · rw [if_neg hlt]
            rw [ih ((a :: t).drop 16) (by simp at hle ⊢; omega) (by
              simp only [List.length_drop] at *
              omega)]
            rfl

theorem group_none (d : List Nat) (h : d.length % 16 ≠ 0) : group d = none :=
  groupGo_none _ d le_rfl h

theorem exists_blocks : ∀ (n : Nat) (d : List Nat), d.length ≤ n → d.length % 16 = 0 →
    ∃ bs : List (List Nat), (∀ b ∈ bs, b.length = 16) ∧ bs.flatten = d ∧
      bs.length = d.length / 16 := by
  intro n
  induction n with
  | zero =>
      intro d hle _
      have : d = [] := List.eq_nil_of_length_eq_zero (by omega)
      subst this
      exact ⟨[], by simp, by simp, by simp⟩
  | succ m ih =>
      intro d hle hmod
      rcases Nat.eq_zero_or_pos d.length with hz | hpos
      · have : d = [] := List.eq_nil_of_length_eq_zero hz
        subst this
        exact ⟨[], by simp, by simp, by simp⟩
      · have h16 : 16 ≤ d.length := by omega
        obtain ⟨bs, hbs, hflat, hcount⟩ := ih (d.drop 16) (by simp; omega) (by simp; omega)
        refine ⟨d.take 16 :: bs, ?_, ?_, ?_⟩
        · intro b hb
          rcases List.mem_cons.mp hb with rfl | hb
          · simp [List.length_take]
            omega
          · exact hbs b hb
        · simp [hflat, List.take_append_drop]
        · simp only [List.length_cons, hcount, List.length_drop]
          omega

theorem group_of_mod (d : List Nat) (h : d.length % 16 = 0) :
    ∃ bs : List (List Nat), group d = some bs ∧ (∀ b ∈ bs, b.length = 16) ∧
      bs.flatten = d ∧ bs.length = d.length / 16 := by
  obtain ⟨bs, hbs, hflat, hcount⟩ := exists_blocks d.length d le_rfl h
  exact ⟨bs, by rw [← hflat]; exact group_join bs hbs, hbs, hflat, hcount⟩

/-! ### Xor-block lemmas -/

theorem xor_block_length (a b : List Nat) :
    (xor_block a b).length = min a.length b.length := by
  simp [xor_block]

theorem xor_block_lt (a b : List Nat) (ha : ∀ v ∈ a, v < 256) (hb : ∀ v ∈ b, v < 256) :
    ∀ v ∈ xor_block a b, v < 256 :=
  zipWith_xor_lt a b ha hb

theorem xor_block_cancel (a b : List Nat) (h : a.length ≤ b.length) :
    xor_block (xor_block a b) b = a :=
  zipWith_xor_cancel a b h

theorem xor_block_comm (a b : List Nat) : xor_block a b = xor_block b a :=
  List.zipWith_comm_of_comm _ Nat.xor_comm a b

/-! ### CBC chaining loop lemmas -/

theorem cbcEncBlocks_inv (key : List Nat) (hk : key.length = 16)
    (hkb : ∀ v ∈ key, v < 256) :
    ∀ (bs : List (List Nat)) (prev : List Nat),
      (∀ b ∈ bs, b.length = 16 ∧ ∀ v ∈ b, v < 256) →
      prev.length = 16 → (∀ v ∈ prev, v < 256) →
      (∀ e ∈ cbcEncBlocks key prev bs, e.length = 16 ∧ ∀ v ∈ e, v < 256) ∧
      cbcDecBlocks key prev (cbcEncBlocks key prev bs) = bs := by
  intro bs
  induction bs with
  | nil =>
      intro prev _ _ _
      exact ⟨by simp [cbcEncBlocks], rfl⟩
  | cons b bs ih =>
      intro prev hbs hprev hprevb
      have hb := hbs b (by simp)
      have hxlen : (xor_block b prev).length = 16 := by
        simp [xor_block_length, hb.1, hprev]
      have hxlt : ∀ v ∈ xor_block b prev, v < 256 := xor_block_lt b prev hb.2 hprevb
      have he := aes_encrypt_valid (xor_block b prev) key hxlen hxlt hk hkb
      obtain ⟨ihv, ihd⟩ := ih (aes_encrypt (xor_block b prev) key)
        (fun b hb => hbs b (by simp [hb])) he.1 he.2
      have hunf : cbcEncBlocks key prev (b :: bs) =
          aes_encrypt (xor_block b prev) key ::
            cbcEncBlocks key (aes_encrypt (xor_block b prev) key) bs := rfl
      constructor
      · intro e hee
        rw [hunf, List.mem_cons] at hee
        rcases hee with rfl | hee
        · exact he
        · exact ihv e hee
      · rw [hunf]
        show xor_block (aes_decrypt (aes_encrypt (xor_block b prev) key) key) prev ::
          cbcDecBlocks key (aes_encrypt (xor_block b prev) key)
            (cbcEncBlocks key (aes_encrypt (xor_block b prev) key) bs) = b :: bs
        rw [aes_decrypt_encrypt _ key hxlen hxlt hk hkb,
          xor_block_cancel b prev (by rw [hb.1, hprev]), ihd]

/-! ### CTR counter-block and loop lemmas -/

theorem toBeBytes8_valid (n : Nat) :
    (toBeBytes8 n).length = 8 ∧ ∀ v ∈ toBeBytes8 n, v < 256 := by
  have hand : ∀ m : Nat, m &&& 255 < 256 := fun m => by
    have := Nat.and_le_right (n := m) (m := 255)
    omega
  refine ⟨rfl, ?_⟩
  simp only [toBeBytes8, List.forall_mem_cons]
  exact ⟨hand _, hand _, hand _, hand _, hand _, hand _, hand _, hand _,
    List.forall_mem_nil _⟩

theorem ctrBlock_valid (nonce : List Nat) (n : Nat) (hn : nonce.length = 8)
    (hnb : ∀ v ∈ nonce, v < 256) :
    (ctrBlock nonce n).length = 16 ∧ ∀ v ∈ ctrBlock nonce n, v < 256 := by
  constructor
  · simp [ctrBlock, hn, (toBeBytes8_valid n).1]
  · intro v hv
    rcases List.mem_append.mp hv with hv | hv
    · exact hnb v hv
    · exact (toBeBytes8_valid n).2 v hv

theorem ctrBlocks_blocklen (key nonce : List Nat) (hk : key.length = 16)
    (hkb : ∀ v ∈ key, v < 256) (hn : nonce.length = 8) (hnb : ∀ v ∈ nonce, v < 256) :
    ∀ (bs : List (List Nat)) (ctr : Nat), (∀ b ∈ bs, b.length = 16) →
      ∀ e ∈ ctrBlocks key nonce ctr bs, e.length = 16 := by
  intro bs
  induction bs with
  | nil => intro ctr _ e he; simp [ctrBlocks] at he
  | cons b bs ih =>
      intro ctr hbs e he
      have hcb := ctrBlock_valid nonce ctr hn hnb
      have hks := aes_encrypt_valid (ctrBlock nonce ctr) key hcb.1 hcb.2 hk hkb
      simp only [ctrBlocks, List.mem_cons] at he
      rcases he with rfl | he
      · simp [xor_block_length, hbs b (by simp), hks.1]
      · exact ih (ctr + 1) (fun b hb => hbs b (by simp [hb])) e he

theorem ctrBlocks_inv (key nonce : List Nat) (hk : key.length = 16)
    (hkb : ∀ v ∈ key, v < 256) (hn : nonce.length = 8) (hnb : ∀ v ∈ nonce, v < 256) :
    ∀ (bs : List (List Nat)) (ctr : Nat), (∀ b ∈ bs, b.length = 16) →
      ctrBlocks key nonce ctr (ctrBlocks key nonce ctr bs) = bs := by
  intro bs
  induction bs with
  | nil => intro ctr _; rfl
  | cons b bs ih =>
      intro ctr hbs
      have hcb := ctrBlock_valid nonce ctr hn hnb
      have hks := aes_encrypt_valid (ctrBlock nonce ctr) key hcb.1 hcb.2 hk hkb
      simp only [ctrBlocks]
      rw [xor_block_cancel b _ (by rw [hbs b (by simp), hks.1]),
        ih (ctr + 1) (fun b hb => hbs b (by simp [hb]))]

/-! ### Mode round trips -/

theorem ecb_roundtrip (x key : List Nat) (hx : ∀ v ∈ x, v < 256)
    (hk : key.length = 16) (hkb : ∀ v ∈ key, v < 256) :
    (ecb_encrypt x key).bind (fun c => ecb_decrypt c key) = some x := by
  obtain ⟨bs, hg, hblen, hflat, -⟩ := group_of_mod (pad x) (pad_mod x)
  have hbv : ∀ b ∈ bs, b.length = 16 ∧ ∀ v ∈ b, v < 256 := fun b hb =>
    ⟨hblen b hb, fun v hv => pad_lt x hx v (hflat ▸ List.mem_flatten.mpr ⟨b, hb, hv⟩)⟩
  have hencv : ∀ e ∈ bs.map (fun block => aes_encrypt block key), e.length = 16 := by
    intro e he
    obtain ⟨b, hb, rfl⟩ := List.mem_map.mp he
    exact (aes_encrypt_valid b key (hbv b hb).1 (hbv b hb).2 hk hkb).1
  have hmaps : (bs.map (fun block => aes_encrypt block key)).map
      (fun block => aes_decrypt block key) = bs := by
    rw [List.map_map]
    have hpt : ∀ b ∈ bs, aes_decrypt (aes_encrypt b key) key = b := fun b hb =>
      aes_decrypt_encrypt b key (hbv b hb).1 (hbv b hb).2 hk hkb
    exact (List.map_congr_left (fun b hb => hpt b hb)).trans (List.map_id bs)
  simp only [ecb_encrypt, hg, Option.map_some', Option.some_bind, ecb_decrypt, un_group,
    group_join _ hencv, hmaps, hflat, un_pad_pad]

theorem cbc_roundtrip (iv x key : List Nat) (hivl : iv.length = 16)
    (hivb : ∀ v ∈ iv, v < 256) (hx : ∀ v ∈ x, v < 256)
    (hk : key.length = 16) (hkb : ∀ v ∈ key, v < 256) :
    (cbc_encrypt iv x key).bind (fun c => cbc_decrypt c key) = some x := by
  obtain ⟨bs, hg, hblen, hflat, -⟩ := group_of_mod (pad x) (pad_mod x)
  have hbv : ∀ b ∈ bs, b.length = 16 ∧ ∀ v ∈ b, v < 256 := fun b hb =>
    ⟨hblen b hb, fun v hv => pad_lt x hx v (hflat ▸ List.mem_flatten.mpr ⟨b, hb, hv⟩)⟩
  obtain ⟨hev, hdec⟩ := cbcEncBlocks_inv key hk hkb bs iv hbv hivl hivb
  have hallv : ∀ b ∈ iv :: cbcEncBlocks key iv bs, b.length = 16 := by
    intro b hb
    rcases List.mem_cons.mp hb with rfl | hb
    · exact hivl
    · exact (hev b hb).1
  simp only [cbc_encrypt, hg, Option.map_some', Option.some_bind, cbc_decrypt, un_group,
    group_join _ hallv, Option.some_bind, hdec, hflat, un_pad_pad]

/-! ### Tampering machinery: block substitution and its effect on the
decryption loops -/

theorem set_getD_self (l : List Nat) (i v : Nat) (h : i < l.length) :
    (l.set i v).getD i 0 = v := by
  rw [List.getD_eq_getElem _ _ (by simpa using h)]
  simp

theorem set_ne_self (l : List Nat) (p v : Nat) (hp : p < l.length)
    (hv : v ≠ l.getD p 0) : l.set p v ≠ l := by
  intro h
  apply hv
  rw [← set_getD_self l p v hp, h]

theorem set_block_valid (l : List Nat) (p v : Nat) (hl : l.length = 16)
    (hb : ∀ w ∈ l, w < 256) (hv : v < 256) :
    (l.set p v).length = 16 ∧ ∀ w ∈ l.set p v, w < 256 := by
  refine ⟨by simp [hl], ?_⟩
  intro w hw
  rcases List.mem_or_eq_of_mem_set hw with hw | rfl
  · exact hb w hw
  · exact hv

theorem aes_decrypt_inj (b1 b2 key : List Nat)
    (h1l : b1.length = 16) (h1b : ∀ v ∈ b1, v < 256)
    (h2l : b2.length = 16) (h2b : ∀ v ∈ b2, v < 256)
    (hk : key.length = 16) (hkb : ∀ v ∈ key, v < 256) (hne : b1 ≠ b2) :
    aes_decrypt b1 key ≠ aes_decrypt b2 key := by
  intro h
  apply hne
  rw [← aes_encrypt_decrypt b1 key h1l h1b hk hkb, h,
    aes_encrypt_decrypt b2 key h2l h2b hk hkb]

theorem xor_block_left_inj (z1 z2 w : List Nat) (h1 : z1.length ≤ w.length)
    (h2 : z2.length ≤ w.length) (hne : z1 ≠ z2) :
    xor_block z1 w ≠ xor_block z2 w := by
  intro h
  apply hne
  rw [← xor_block_cancel z1 w h1, h, xor_block_cancel z2 w h2]

theorem xor_block_right_inj (w b1 b2 : List Nat) (h1 : b1.length ≤ w.length)
    (h2 : b2.length ≤ w.length) (hne : b1 ≠ b2) :
    xor_block w b1 ≠ xor_block w b2 := by
  rw [xor_block_comm w b1, xor_block_comm w b2]
  exact xor_block_left_inj b1 b2 w h1 h2 hne

theorem cbcDecBlocks_length (key : List Nat) :
    ∀ (cs : List (List Nat)) (prev : List Nat),
      (cbcDecBlocks key prev cs).length = cs.length := by
  intro cs
  induction cs with
  | nil => intro prev; rfl
  | cons c cs ih => intro prev; simp only [cbcDecBlocks, List.length_cons, ih]

theorem cbcDecBlocks_prev_getD (key : List Nat) (cs : List (List Nat))
    (p1 p2 : List Nat) : ∀ j, 1 ≤ j →
    (cbcDecBlocks key p1 cs).getD j [] = (cbcDecBlocks key p2 cs).getD j [] := by
  intro j hj
  cases cs with
  | nil => rfl
  | cons c cs =>
      obtain ⟨j, rfl⟩ : ∃ m, j = m + 1 := ⟨j - 1, by omega⟩
      simp only [cbcDecBlocks, List.getD_cons_succ]

theorem cbcDecBlocks_set_getD (key : List Nat) :
    ∀ (cs : List (List Nat)) (prev : List Nat) (m : Nat) (b' : List Nat) (j : Nat),
      j ≠ m → j ≠ m + 1 →
      (cbcDecBlocks key prev (cs.set m b')).getD j [] =
        (cbcDecBlocks key prev cs).getD j [] := by
  intro cs
  induction cs with
  | nil => intro prev m b' j _ _; simp
  | cons c cs ih =>
      intro prev m b' j hjm hjm1
      cases m with
      | zero =>
          obtain ⟨j, rfl⟩ : ∃ i, j = i + 1 := ⟨j - 1, by omega⟩
          have hj1 : 1 ≤ j := by omega
          show (cbcDecBlocks key prev (b' :: cs)).getD (j + 1) [] =
            (cbcDecBlocks key prev (c :: cs)).getD (j + 1) []
          simp only [cbcDecBlocks, List.getD_cons_succ]
          exact cbcDecBlocks_prev_getD key cs b' c j hj1
      | succ m =>
          show (cbcDecBlocks key prev (c :: cs.set m b')).getD j [] =
            (cbcDecBlocks key prev (c :: cs)).getD j []
          cases j with
          | zero => simp [cbcDecBlocks]
          | succ j =>
              simp only [cbcDecBlocks, List.getD_cons_succ]
              exact ih c m b' j (by omega) (by omega)

theorem cbcDecBlocks_set_corrupt_here (key : List Nat) (hk : key.length = 16)
    (hkb : ∀ v ∈ key, v < 256) :
    ∀ (cs : List (List Nat)) (prev : List Nat) (m : Nat) (b' : List Nat),
      m < cs.length →
      (∀ b ∈ cs, b.length = 16 ∧ ∀ v ∈ b, v < 256) →
      prev.length = 16 →
      b'.length = 16 → (∀ v ∈ b', v < 256) →
      b' ≠ cs.getD m [] →
      (cbcDecBlocks key prev (cs.set m b')).getD m [] ≠
        (cbcDecBlocks key prev cs).getD m [] := by
  intro cs
  induction cs with
  | nil => intro prev m b' hm _ _ _ _ _; simp at hm
  | cons c cs ih =>
      intro prev m b' hm hcs hprev hbl hbb hne
      have hc := hcs c (by simp)
      cases m with
      | zero =>
          show (cbcDecBlocks key prev (b' :: cs)).getD 0 [] ≠
            (cbcDecBlocks key prev (c :: cs)).getD 0 []
          simp only [cbcDecBlocks, List.getD_cons_zero]
          have hdv1 := aes_decrypt_valid b' key hbl hbb hk hkb
          have hdv2 := aes_decrypt_valid c key hc.1 hc.2 hk hkb
          exact xor_block_left_inj _ _ prev (by rw [hdv1.1, hprev])
            (by rw [hdv2.1, hprev])
            (aes_decrypt_inj b' c key hbl hbb hc.1 hc.2 hk hkb
              (by simpa using hne))
      | succ m =>
          show (cbcDecBlocks key prev (c :: cs.set m b')).getD (m + 1) [] ≠
            (cbcDecBlocks key prev (c :: cs)).getD (m + 1) []
          simp only [cbcDecBlocks, List.getD_cons_succ]
          exact ih c m b' (by simpa using hm)
            (fun b hb => hcs b (by simp [hb])) hc.1 hbl hbb (by simpa using hne)

theorem cbcDecBlocks_set_corrupt_next (key : List Nat) (hk : key.length = 16)
    (hkb : ∀ v ∈ key, v < 256) :
    ∀ (cs : List (List Nat)) (prev : List Nat) (m : Nat) (b' : List Nat),
      m + 1 < cs.length →
      (∀ b ∈ cs, b.length = 16 ∧ ∀ v ∈ b, v < 256) →
      b'.length = 16 →
      b' ≠ cs.getD m [] →
      (cbcDecBlocks key prev (cs.set m b')).getD (m + 1) [] ≠
        (cbcDecBlocks key prev cs).getD (m + 1) [] := by
  intro cs
  induction cs with
  | nil => intro prev m b' hm _ _ _; simp at hm
  | cons c cs ih =>
      intro prev m b' hm hcs hbl hne
      have hc := hcs c (by simp)
      cases m with
      | zero =>
          obtain ⟨c2, cs', rfl⟩ : ∃ c2 cs', cs = c2 :: cs' := by
            cases cs with
            | nil => simp at hm
            | cons c2 cs' => exact ⟨c2, cs', rfl⟩
          have hc2 := hcs c2 (by simp)
          show (cbcDecBlocks key prev (b' :: c2 :: cs')).getD 1 [] ≠
            (cbcDecBlocks key prev (c :: c2 :: cs')).getD 1 []
          simp only [cbcDecBlocks, List.getD_cons_succ, List.getD_cons_zero]
          have hdv := aes_decrypt_valid c2 key hc2.1 hc2.2 hk hkb
          exact xor_block_right_inj _ b' c (by rw [hbl, hdv.1])
            (by rw [hc.1, hdv.1]) (by simpa using hne)
      | succ m =>
          show (cbcDecBlocks key prev (c :: cs.set m b')).getD (m + 1 + 1) [] ≠
            (cbcDecBlocks key prev (c :: cs)).getD (m + 1 + 1) []
          simp only [cbcDecBlocks, List.getD_cons_succ]
          exact ih c m b' (by simpa using hm)
            (fun b hb => hcs b (by simp [hb])) hbl (by simpa using hne)

theorem ctrBlocks_length (key nonce : List Nat) :
    ∀ (cs : List (List Nat)) (ctr : Nat),
      (ctrBlocks key nonce ctr cs).length = cs.length := by
  intro cs
  induction cs with
  | nil => intro ctr; rfl
  | cons c cs ih => intro ctr; simp only [ctrBlocks, List.length_cons, ih]

theorem ctrBlocks_set_getD (key nonce : List Nat) :
    ∀ (cs : List (List Nat)) (ctr m : Nat) (b' : List Nat) (j : Nat), j ≠ m →
      (ctrBlocks key nonce ctr (cs.set m b')).getD j [] =
        (ctrBlocks key nonce ctr cs).getD j [] := by
  intro cs
  induction cs with
  | nil => intro ctr m b' j _; simp
  | cons c cs ih =>
      intro ctr m b' j hjm
      cases m with
      | zero =>
          obtain ⟨j, rfl⟩ : ∃ i, j = i + 1 := ⟨j - 1, by omega⟩
          show (ctrBlocks key nonce ctr (b' :: cs)).getD (j + 1) [] =
            (ctrBlocks key nonce ctr (c :: cs)).getD (j + 1) []
          simp only [ctrBlocks, List.getD_cons_succ]
      | succ m =>
          show (ctrBlocks key nonce ctr (c :: cs.set m b')).getD j [] =
            (ctrBlocks key nonce ctr (c :: cs)).getD j []
          cases j with
          | zero => simp [ctrBlocks]
          | succ j =>
              simp only [ctrBlocks, List.getD_cons_succ]
              exact ih (ctr + 1) m b' j (by omega)

theorem ctrBlocks_set_corrupt (key nonce : List Nat) (hk : key.length = 16)
    (hkb : ∀ v ∈ key, v < 256) (hn : nonce.length = 8) (hnb : ∀ v ∈ nonce, v < 256) :
    ∀ (cs : List (List Nat)) (ctr m : Nat) (b' : List Nat),
      m < cs.length →
      (∀ b ∈ cs, b.length = 16) →
      b'.length = 16 →
      b' ≠ cs.getD m [] →
      (ctrBlocks key nonce ctr (cs.set m b')).getD m [] ≠
        (ctrBlocks key nonce ctr cs).getD m [] := by
  intro cs
  induction cs with
  | nil => intro ctr m b' hm _ _ _; simp at hm
  | cons c cs ih =>
      intro ctr m b' hm hcs hbl hne
      cases m with
      | zero =>
          show (ctrBlocks key nonce ctr (b' :: cs)).getD 0 [] ≠
            (ctrBlocks key nonce ctr (c :: cs)).getD 0 []
          simp only [ctrBlocks, List.getD_cons_zero]
          have hcb := ctrBlock_valid nonce ctr hn hnb
          have hks := aes_encrypt_valid (ctrBlock nonce ctr) key hcb.1 hcb.2 hk hkb
          exact xor_block_left_inj b' c _ (by rw [hbl, hks.1])
            (by rw [hcs c (by simp), hks.1]) (by simpa using hne)
      | succ m =>
          show (ctrBlocks key nonce ctr (c :: cs.set m b')).getD (m + 1) [] ≠
            (ctrBlocks key nonce ctr (c :: cs)).getD (m + 1) []
          simp only [ctrBlocks, List.getD_cons_succ]
          exact ih (ctr + 1) m b' (by simpa using hm)
            (fun b hb => hcs b (by simp [hb])) hbl (by simpa using hne)

theorem ctr_roundtrip (nonce x key : List Nat) (hnl : nonce.length = 8)
    (hnb : ∀ v ∈ nonce, v < 256) (hx : ∀ v ∈ x, v < 256)
    (hk : key.length = 16) (hkb : ∀ v ∈ key, v < 256) :
    (ctr_encrypt nonce x key).bind (fun c => ctr_decrypt c key) = some x := by
  obtain ⟨bs, hg, hblen, hflat, -⟩ := group_of_mod (pad x) (pad_mod x)
  have hbv : ∀ b ∈ bs, b.length = 16 ∧ ∀ v ∈ b, v < 256 := fun b hb =>
    ⟨hblen b hb, fun v hv => pad_lt x hx v (hflat ▸ List.mem_flatten.mpr ⟨b, hb, hv⟩)⟩
  have hallv : ∀ b ∈ (nonce ++ List.replicate 8 0) :: ctrBlocks key nonce 0 bs,
      b.length = 16 := by
    intro b hb
    rcases List.mem_cons.mp hb with rfl | hb
    · simp [hnl]
    · exact ctrBlocks_blocklen key nonce hk hkb hnl hnb bs 0
        (fun b hb => (hbv b hb).1) b hb
  have htake : (nonce ++ List.replicate 8 0).take 8 = nonce := by
    rw [show (8 : Nat) = nonce.length from hnl.symm, List.take_left]
  simp only [ctr_encrypt, hg, Option.map_some', Option.some_bind, ctr_decrypt, un_group,
    group_join _ hallv, Option.some_bind, htake,
    ctrBlocks_inv key nonce hk hkb hnl hnb bs 0 (fun b hb => (hbv b hb).1),
    hflat, un_pad_pad]

/-! ### Structure of the encrypted outputs as block lists -/

theorem getD_map_blocks (f : List Nat → List Nat) (bs : List (List Nat)) (i : Nat)
    (hi : i < bs.length) : (bs.map f).getD i [] = f (bs.getD i []) := by
  rw [List.getD_eq_getElem _ _ (by simpa using hi), List.getD_eq_getElem _ _ hi,
    List.getElem_map]

theorem ecb_encrypt_group (x key : List Nat) (hx : ∀ v ∈ x, v < 256)
    (hk : key.length = 16) (hkb : ∀ v ∈ key, v < 256) (c : List Nat)
    (cs : List (List Nat)) (hc : ecb_encrypt x key = some c) (hcs : group c = some cs) :
    ∃ bs, group (pad x) = some bs ∧
      cs = bs.map (fun block => aes_encrypt block key) ∧
      (∀ b ∈ bs, b.length = 16 ∧ ∀ v ∈ b, v < 256) := by
  obtain ⟨bs, hg, hblen, hflat, -⟩ := group_of_mod (pad x) (pad_mod x)
  have hbv : ∀ b ∈ bs, b.length = 16 ∧ ∀ v ∈ b, v < 256 := fun b hb =>
    ⟨hblen b hb, fun v hv => pad_lt x hx v (hflat ▸ List.mem_flatten.mpr ⟨b, hb, hv⟩)⟩
  have hencv : ∀ e ∈ bs.map (fun block => aes_encrypt block key), e.length = 16 := by
    intro e he
    obtain ⟨b, hb, rfl⟩ := List.mem_map.mp he
    exact (aes_encrypt_valid b key (hbv b hb).1 (hbv b hb).2 hk hkb).1
  simp only [ecb_encrypt, hg, Option.map_some'] at hc
  obtain rfl := Option.some.inj hc
  rw [show un_group (bs.map (fun block => aes_encrypt block key)) =
      (bs.map (fun block => aes_encrypt block key)).flatten from rfl,
    group_join _ hencv] at hcs
  obtain rfl := Option.some.inj hcs
  exact ⟨bs, hg, rfl, hbv⟩

theorem cbc_encrypt_group (iv x key : List Nat) (hivl : iv.length = 16)
    (hivb : ∀ v ∈ iv, v < 256) (hx : ∀ v ∈ x, v < 256) (hk : key.length = 16)
    (hkb : ∀ v ∈ key, v < 256) (c : List Nat) (cs : List (List Nat))
    (hc : cbc_encrypt iv x key = some c) (hcs : group c = some cs) :
    ∃ bs, group (pad x) = some bs ∧ cs = iv :: cbcEncBlocks key iv bs ∧
      ∀ b ∈ cs, b.length = 16 ∧ ∀ v ∈ b, v < 256 := by
  obtain ⟨bs, hg, hblen, hflat, -⟩ := group_of_mod (pad x) (pad_mod x)
  have hbv : ∀ b ∈ bs, b.length = 16 ∧ ∀ v ∈ b, v < 256 := fun b hb =>
    ⟨hblen b hb, fun v hv => pad_lt x hx v (hflat ▸ List.mem_flatten.mpr ⟨b, hb, hv⟩)⟩
  obtain ⟨hev, -⟩ := cbcEncBlocks_inv key hk hkb bs iv hbv hivl hivb
  have hallv : ∀ b ∈ iv :: cbcEncBlocks key iv bs, b.length = 16 ∧ ∀ v ∈ b, v < 256 := by
    intro b hb
    rcases List.mem_cons.mp hb with rfl | hb
    · exact ⟨hivl, hivb⟩
    · exact hev b hb
  simp only [cbc_encrypt, hg, Option.map_some'] at hc
  obtain rfl := Option.some.inj hc
  rw [show un_group (iv :: cbcEncBlocks key iv bs) =
      (iv :: cbcEncBlocks key iv bs).flatten from rfl,
    group_join _ (fun b hb => (hallv b hb).1)] at hcs
  obtain rfl := Option.some.inj hcs
  exact ⟨bs, hg, rfl, hallv⟩

theorem ctr_encrypt_group (nonce x key : List Nat) (hnl : nonce.length = 8)
    (hnb : ∀ v ∈ nonce, v < 256) (hx : ∀ v ∈ x, v < 256) (hk : key.length = 16)
    (hkb : ∀ v ∈ key, v < 256) (c : List Nat) (cs : List (List Nat))
    (hc : ctr_encrypt nonce x key = some c) (hcs : group c = some cs) :
    ∃ bs, group (pad x) = some bs ∧
      cs = (nonce ++ List.replicate 8 0) :: ctrBlocks key nonce 0 bs ∧
      ∀ b ∈ cs, b.length = 16 := by
  obtain ⟨bs, hg, hblen, hflat, -⟩ := group_of_mod (pad x) (pad_mod x)
  have hbv : ∀ b ∈ bs, b.length = 16 ∧ ∀ v ∈ b, v < 256 := fun b hb =>
    ⟨hblen b hb, fun v hv => pad_lt x hx v (hflat ▸ List.mem_flatten.mpr ⟨b, hb, hv⟩)⟩
  have hallv : ∀ b ∈ (nonce ++ List.replicate 8 0) :: ctrBlocks key nonce 0 bs,
      b.length = 16 := by
    intro b hb
    rcases List.mem_cons.mp hb with rfl | hb
    · simp [hnl]
    · exact ctrBlocks_blocklen key nonce hk hkb hnl hnb bs 0
        (fun b hb => (hbv b hb).1) b hb
  simp only [ctr_encrypt, hg, Option.map_some'] at hc
  obtain rfl := Option.some.inj hc
  rw [show un_group ((nonce ++ List.replicate 8 0) :: ctrBlocks key nonce 0 bs) =
      ((nonce ++ List.replicate 8 0) :: ctrBlocks key nonce 0 bs).flatten from rfl,
    group_join _ hallv] at hcs
  obtain rfl := Option.some.inj hcs
  exact ⟨bs, hg, rfl, hallv⟩

/-! ### The claims -/

/-- Claim C1: for every byte buffer x and 16-byte key k, decrypting a CBC
encryption of x recovers x, regardless of which IV the randomness source
supplies to `cbc_encrypt` — the round trip holds for all possible IVs, so
repeated calls with different IVs all decrypt to the same x. -/
theorem claim_C1_cbc_round_trip (x key iv : List Nat)
    (hx : ∀ v ∈ x, v < 256) (hk : key.length = 16) (hkb : ∀ v ∈ key, v < 256)
    (hivl : iv.length = 16) (hivb : ∀ v ∈ iv, v < 256) :
    (cbc_encrypt iv x key).bind (fun c => cbc_decrypt c key) = some x :=
  cbc_roundtrip iv x key hivl hivb hx hk hkb

/-- Witness for C1 at a concrete plaintext, key and IV. -/
theorem claim_C1_witness :
    (cbc_encrypt (List.replicate 16 7) [1, 2, 3] TEST_KEY).bind
      (fun c => cbc_decrypt c TEST_KEY) = some [1, 2, 3] :=
  claim_C1_cbc_round_trip [1, 2, 3] TEST_KEY (List.replicate 16 7)
    (by decide) (by decide) (by decide) (by decide) (by decide)

/-- Claim C2: for every byte buffer x and 16-byte key k, decrypting a CTR
encryption of x recovers x, regardless of which nonce the randomness source
supplies to `ctr_encrypt`. -/
theorem claim_C2_ctr_round_trip (x key nonce : List Nat)
    (hx : ∀ v ∈ x, v < 256) (hk : key.length = 16) (hkb : ∀ v ∈ key, v < 256)
    (hnl : nonce.length = 8) (hnb : ∀ v ∈ nonce, v < 256) :
    (ctr_encrypt nonce x key).bind (fun c => ctr_decrypt c key) = some x :=
  ctr_roundtrip nonce x key hnl hnb hx hk hkb

/-- Witness for C2 at a concrete plaintext, key and nonce. -/
theorem claim_C2_witness :
    (ctr_encrypt (List.replicate 8 9) [1, 2, 3] TEST_KEY).bind
      (fun c => ctr_decrypt c TEST_KEY) = some [1, 2, 3] :=
  claim_C2_ctr_round_trip [1, 2, 3] TEST_KEY (List.replicate 8 9)
    (by decide) (by decide) (by decide) (by decide) (by decide)

/-- Claim C3: for every byte buffer x and 16-byte key k, decrypting an ECB
encryption of x recovers x, and `ecb_encrypt` is deterministic: two calls on
the same input yield identical output (no randomness is consumed — the
function takes no randomness input at all). -/
theorem claim_C3_ecb_round_trip (x key : List Nat)
    (hx : ∀ v ∈ x, v < 256) (hk : key.length = 16) (hkb : ∀ v ∈ key, v < 256) :
    (ecb_encrypt x key).bind (fun c => ecb_decrypt c key) = some x ∧
    ecb_encrypt x key = ecb_encrypt x key :=
  ⟨ecb_roundtrip x key hx hk hkb, rfl⟩

/-- Witness for C3 at a concrete plaintext and key. -/
theorem claim_C3_witness :
    (ecb_encrypt [1, 2, 3] TEST_KEY).bind (fun c => ecb_decrypt c TEST_KEY) =
      some [1, 2, 3] ∧
    ecb_encrypt [1, 2, 3] TEST_KEY = ecb_encrypt [1, 2, 3] TEST_KEY :=
  claim_C3_ecb_round_trip [1, 2, 3] TEST_KEY (by decide) (by decide) (by decide)

/-- Counterexample for C4 as stated: the ECB ciphertext of the test plaintext
under the test key is not 34 bytes long and its hex encoding is not the
63-character string of the claim. -/
theorem claim_C4_counterexample :
    ¬ ((ecb_encrypt PBA_MSG TEST_KEY).map List.length = some 34 ∧
      (ecb_encrypt PBA_MSG TEST_KEY).map hexEncode =
        some ("12d4105e43c4426e1f3e9455bb39c8fc0a4667637c9de8bad43ee801d313a55").toList) := by
  rw [ecb_test_vector_enc]
  decide

/-- Claim C4, amended: encrypting the ASCII bytes of the test sentence under
the test key with ECB yields exactly the 32-byte ciphertext (exactly 2 blocks
after padding) whose hex encoding is
12d4105e43c4426e1f3e9455bb39c8fc0a4667637c9de8bad43ee801d313a555, and
decrypting that ciphertext under the same key returns the original bytes. -/
theorem claim_C4_ecb_test_vector :
    ecb_encrypt PBA_MSG TEST_KEY = some PBA_CT ∧
    hexEncode PBA_CT =
      ("12d4105e43c4426e1f3e9455bb39c8fc0a4667637c9de8bad43ee801d313a555").toList ∧
    PBA_CT.length = 32 ∧
    ecb_decrypt PBA_CT TEST_KEY = some PBA_MSG :=
  ⟨ecb_test_vector_enc, ecb_test_vector_hex, ecb_test_vector_len, ecb_test_vector_dec⟩

/-- Claim C5: for every byte buffer x, un_pad (pad x) = x; pad appends
n = 16 - (len x mod 16) bytes of value n, n is in [1, 16] and never zero, and
a full extra block of value-16 bytes is appended when the length is already a
multiple of 16. -/
theorem claim_C5_pad_round_trip (x : List Nat) :
    un_pad (pad x) = x ∧
    pad x = x ++ List.replicate (16 - x.length % 16) (16 - x.length % 16) ∧
    1 ≤ 16 - x.length % 16 ∧ 16 - x.length % 16 ≤ 16 ∧
    (x.length % 16 = 0 → pad x = x ++ List.replicate 16 16) := by
  refine ⟨un_pad_pad x, pad_spec x, by omega, by omega, fun h => ?_⟩
  rw [pad_spec, h]

/-- Witness for C5 at a buffer whose length is an exact multiple of 16. -/
theorem claim_C5_witness :
    un_pad (pad (List.replicate 16 5)) = List.replicate 16 5 ∧
    pad (List.replicate 16 5) = List.replicate 16 5 ++
      List.replicate (16 - (List.replicate 16 5 : List Nat).length % 16)
        (16 - (List.replicate 16 5 : List Nat).length % 16) ∧
    1 ≤ 16 - (List.replicate 16 5 : List Nat).length % 16 ∧
    16 - (List.replicate 16 5 : List Nat).length % 16 ≤ 16 ∧
    ((List.replicate 16 5 : List Nat).length % 16 = 0 →
      pad (List.replicate 16 5) = List.replicate 16 5 ++ List.replicate 16 16) :=
  claim_C5_pad_round_trip (List.replicate 16 5)

/-- Claim C8: for every byte buffer x whose length is a multiple of 16,
grouping slices x into consecutive 16-byte blocks in order, and un_group
concatenates them back to x. -/
theorem claim_C8_group_round_trip (x : List Nat) (h : x.length % 16 = 0) :
    ∃ bs, group x = some bs ∧ un_group bs = x ∧ (∀ b ∈ bs, b.length = 16) ∧
      bs.length = x.length / 16 := by
  obtain ⟨bs, hg, hlen, hflat, hcount⟩ := group_of_mod x h
  exact ⟨bs, hg, hflat, hlen, hcount⟩

/-- Witness for C8 at a concrete 32-byte buffer. -/
theorem claim_C8_witness :
    ∃ bs, group (List.replicate 32 3) = some bs ∧
      un_group bs = List.replicate 32 3 ∧ (∀ b ∈ bs, b.length = 16) ∧
      bs.length = (List.replicate 32 3 : List Nat).length / 16 :=
  claim_C8_group_round_trip (List.replicate 32 3) (by decide)

/-- Claim C9: ECB pattern leakage — each ciphertext block of `ecb_encrypt` is
the block-cipher encryption of the corresponding padded-plaintext block,
independent of all other blocks, so identical padded-plaintext blocks at two
positions yield identical ciphertext blocks at those positions. -/
theorem claim_C9_ecb_pattern_leakage (x key c : List Nat) (bs cbs : List (List Nat))
    (hx : ∀ v ∈ x, v < 256) (hk : key.length = 16) (hkb : ∀ v ∈ key, v < 256)
    (hbs : group (pad x) = some bs) (hc : ecb_encrypt x key = some c)
    (hcbs : group c = some cbs) (i j : Nat) (hi : i < bs.length) (hj : j < bs.length) :
    cbs.getD i [] = aes_encrypt (bs.getD i []) key ∧
    cbs.getD j [] = aes_encrypt (bs.getD j []) key ∧
    (bs.getD i [] = bs.getD j [] → cbs.getD i [] = cbs.getD j []) := by
  obtain ⟨bs', hg', hcbseq, hbv'⟩ := ecb_encrypt_group x key hx hk hkb c cbs hc hcbs
  obtain rfl : bs = bs' := Option.some.inj (hbs.symm.trans hg')
  subst hcbseq
  refine ⟨getD_map_blocks _ bs i hi, getD_map_blocks _ bs j hj, fun h => ?_⟩
  rw [getD_map_blocks _ bs i hi, getD_map_blocks _ bs j hj, h]

/-- Witness for C9: the all-sevens 32-byte plaintext has two identical padded
blocks, and the corresponding ECB ciphertext blocks coincide. -/
theorem claim_C9_witness :
    ([DEMO_CT.take 16, (DEMO_CT.drop 16).take 16, DEMO_CT.drop 32] : List (List Nat)).getD
        0 [] = aes_encrypt
          (([List.replicate 16 7, List.replicate 16 7, List.replicate 16 16] :
            List (List Nat)).getD 0 []) TEST_KEY ∧
    ([DEMO_CT.take 16, (DEMO_CT.drop 16).take 16, DEMO_CT.drop 32] : List (List Nat)).getD
        1 [] = aes_encrypt
          (([List.replicate 16 7, List.replicate 16 7, List.replicate 16 16] :
            List (List Nat)).getD 1 []) TEST_KEY ∧
    (([List.replicate 16 7, List.replicate 16 7, List.replicate 16 16] :
        List (List Nat)).getD 0 [] =
      ([List.replicate 16 7, List.replicate 16 7, List.replicate 16 16] :
        List (List Nat)).getD 1 [] →
      ([DEMO_CT.take 16, (DEMO_CT.drop 16).take 16, DEMO_CT.drop 32] :
        List (List Nat)).getD 0 [] =
      ([DEMO_CT.take 16, (DEMO_CT.drop 16).take 16, DEMO_CT.drop 32] :
        List (List Nat)).getD 1 []) :=
  claim_C9_ecb_pattern_leakage (List.replicate 32 7) TEST_KEY DEMO_CT
    [List.replicate 16 7, List.replicate 16 7, List.replicate 16 16]
    [DEMO_CT.take 16, (DEMO_CT.drop 16).take 16, DEMO_CT.drop 32]
    (by decide) (by decide) (by decide) (by decide) ecb_demo_enc (by decide)
    0 1 (by decide) (by decide)

/-- Claim C6: CBC tamper localization — replacing one byte at position p of
ciphertext block i (i at least 1, counting the prepended IV as block 0) of a
`cbc_encrypt` output corrupts exactly the decrypted blocks aligned with
ciphertext positions i and i + 1: the decrypted block at position i (the block
containing the tampered byte) changes, the one at position i + 1 changes when
it exists, and every other decrypted block is identical to the untampered
decryption. Decrypted block position j here is `getD (j - 1)` of the
`cbcDecBlocks` list that `cbc_decrypt` unpads. -/
theorem claim_C6_cbc_tamper_localization (iv x key c : List Nat) (cs : List (List Nat))
    (hivl : iv.length = 16) (hivb : ∀ v ∈ iv, v < 256) (hx : ∀ v ∈ x, v < 256)
    (hk : key.length = 16) (hkb : ∀ v ∈ key, v < 256)
    (hc : cbc_encrypt iv x key = some c) (hcs : group c = some cs)
    (i p v : Nat) (hi1 : 1 ≤ i) (hilen : i < cs.length) (hp : p < 16) (hv : v < 256)
    (hne : v ≠ (cs.getD i []).getD p 0) :
    cbc_decrypt (un_group (cs.set i ((cs.getD i []).set p v))) key =
      some (un_pad (un_group (cbcDecBlocks key
        ((cs.set i ((cs.getD i []).set p v)).getD 0 [])
        (cs.set i ((cs.getD i []).set p v)).tail))) ∧
    (cbcDecBlocks key ((cs.set i ((cs.getD i []).set p v)).getD 0 [])
        (cs.set i ((cs.getD i []).set p v)).tail).length =
      (cbcDecBlocks key (cs.getD 0 []) cs.tail).length ∧
    (∀ j, j + 1 ≠ i → j + 1 ≠ i + 1 →
      (cbcDecBlocks key ((cs.set i ((cs.getD i []).set p v)).getD 0 [])
          (cs.set i ((cs.getD i []).set p v)).tail).getD j [] =
        (cbcDecBlocks key (cs.getD 0 []) cs.tail).getD j []) ∧
    (cbcDecBlocks key ((cs.set i ((cs.getD i []).set p v)).getD 0 [])
        (cs.set i ((cs.getD i []).set p v)).tail).getD (i - 1) [] ≠
      (cbcDecBlocks key (cs.getD 0 []) cs.tail).getD (i - 1) [] ∧
    (i + 1 < cs.length →
      (cbcDecBlocks key ((cs.set i ((cs.getD i []).set p v)).getD 0 [])
          (cs.set i ((cs.getD i []).set p v)).tail).getD i [] ≠
        (cbcDecBlocks key (cs.getD 0 []) cs.tail).getD i []) := by
  obtain ⟨bs, hg, rfl, hallv⟩ := cbc_encrypt_group iv x key hivl hivb hx hk hkb c cs hc hcs
  obtain ⟨m, rfl⟩ : ∃ m, i = m + 1 := ⟨i - 1, by omega⟩
  set enc := cbcEncBlocks key iv bs with henc
  simp only [List.set_cons_succ, List.getD_cons_succ, List.getD_cons_zero, List.tail_cons,
    Nat.add_sub_cancel, List.length_cons] at hne hilen ⊢
  have hmlt : m < enc.length := by omega
  set b := enc.getD m [] with hbdef
  set bT := b.set p v with hbTdef
  have hbv : b.length = 16 ∧ ∀ w ∈ b, w < 256 :=
    hallv b (List.mem_cons_of_mem _ (getD_mem_of_lt enc [] m hmlt))
  have hbTv := set_block_valid b p v hbv.1 hbv.2 hv
  have hbne : bT ≠ b := set_ne_self b p v (by rw [hbv.1]; exact hp) hne
  have hencv : ∀ bl ∈ enc, bl.length = 16 ∧ ∀ w ∈ bl, w < 256 :=
    fun bl hbl => hallv bl (List.mem_cons_of_mem _ hbl)
  refine ⟨?_, ?_, fun j hj1 hj2 => ?_, ?_, fun hlast => ?_⟩
  · have hsetlens : ∀ bl ∈ iv :: enc.set m bT, bl.length = 16 := by
      intro bl hbl
      rcases List.mem_cons.mp hbl with rfl | hbl
      · exact hivl
      · rcases List.mem_or_eq_of_mem_set hbl with hbl | rfl
        · exact (hencv bl hbl).1
        · exact hbTv.1
    simp only [cbc_decrypt]
    rw [show un_group (iv :: enc.set m bT) = (iv :: enc.set m bT).flatten from rfl,
      group_join _ hsetlens]
    rfl
  · rw [cbcDecBlocks_length, cbcDecBlocks_length, List.length_set]
  · exact cbcDecBlocks_set_getD key enc iv m bT j (by omega) (by omega)
  · exact cbcDecBlocks_set_corrupt_here key hk hkb enc iv m bT hmlt hencv hivl
      hbTv.1 hbTv.2 (by rw [hbdef] at hbne; exact hbne)
  · have hm1 : m + 1 < enc.length := by omega
    exact cbcDecBlocks_set_corrupt_next key hk hkb enc iv m bT hm1 hencv hbTv.1
      (by rw [hbdef] at hbne; exact hbne)

/-- Witness for C6: tampering byte 0 of block 1 of a concrete 4-block CBC
ciphertext corrupts the decrypted blocks at positions 1 and 2. -/
theorem claim_C6_witness :
    (cbcDecBlocks TEST_KEY
        (([CBC_DEMO_CT.take 16, (CBC_DEMO_CT.drop 16).take 16,
            (CBC_DEMO_CT.drop 32).take 16, CBC_DEMO_CT.drop 48].set 1
          (([CBC_DEMO_CT.take 16, (CBC_DEMO_CT.drop 16).take 16,
            (CBC_DEMO_CT.drop 32).take 16, CBC_DEMO_CT.drop 48].getD 1 []).set 0 0)).getD 0 [])
        ([CBC_DEMO_CT.take 16, (CBC_DEMO_CT.drop 16).take 16,
            (CBC_DEMO_CT.drop 32).take 16, CBC_DEMO_CT.drop 48].set 1
          (([CBC_DEMO_CT.take 16, (CBC_DEMO_CT.drop 16).take 16,
            (CBC_DEMO_CT.drop 32).take 16, CBC_DEMO_CT.drop 48].getD 1 []).set 0 0)).tail).getD
        0 [] ≠
      (cbcDecBlocks TEST_KEY
        ([CBC_DEMO_CT.take 16, (CBC_DEMO_CT.drop 16).take 16,
          (CBC_DEMO_CT.drop 32).take 16, CBC_DEMO_CT.drop 48].getD 0 [])
        [CBC_DEMO_CT.take 16, (CBC_DEMO_CT.drop 16).take 16,
          (CBC_DEMO_CT.drop 32).take 16, CBC_DEMO_CT.drop 48].tail).getD 0 [] ∧
    (cbcDecBlocks TEST_KEY
        (([CBC_DEMO_CT.take 16, (CBC_DEMO_CT.drop 16).take 16,
            (CBC_DEMO_CT.drop 32).take 16, CBC_DEMO_CT.drop 48].set 1
          (([CBC_DEMO_CT.take 16, (CBC_DEMO_CT.drop 16).take 16,
            (CBC_DEMO_CT.drop 32).take 16, CBC_DEMO_CT.drop 48].getD 1 []).set 0 0)).getD 0 [])
        ([CBC_DEMO_CT.take 16, (CBC_DEMO_CT.drop 16).take 16,
            (CBC_DEMO_CT.drop 32).take 16, CBC_DEMO_CT.drop 48].set 1
          (([CBC_DEMO_CT.take 16, (CBC_DEMO_CT.drop 16).take 16,
            (CBC_DEMO_CT.drop 32).take 16, CBC_DEMO_CT.drop 48].getD 1 []).set 0 0)).tail).getD
        1 [] ≠
      (cbcDecBlocks TEST_KEY
        ([CBC_DEMO_CT.take 16, (CBC_DEMO_CT.drop 16).take 16,
          (CBC_DEMO_CT.drop 32).take 16, CBC_DEMO_CT.drop 48].getD 0 [])
        [CBC_DEMO_CT.take 16, (CBC_DEMO_CT.drop 16).take 16,
          (CBC_DEMO_CT.drop 32).take 16, CBC_DEMO_CT.drop 48].tail).getD 1 [] :=
  ⟨(claim_C6_cbc_tamper_localization (List.replicate 16 7) (List.replicate 32 7) TEST_KEY
      CBC_DEMO_CT
      [CBC_DEMO_CT.take 16, (CBC_DEMO_CT.drop 16).take 16,
        (CBC_DEMO_CT.drop 32).take 16, CBC_DEMO_CT.drop 48]
      (by decide) (by decide) (by decide) (by decide) (by decide) cbc_demo_enc (by decide)
      1 0 0 (by decide) (by decide) (by decide) (by decide) (by decide)).2.2.2.1,
    (claim_C6_cbc_tamper_localization (List.replicate 16 7) (List.replicate 32 7) TEST_KEY
      CBC_DEMO_CT
      [CBC_DEMO_CT.take 16, (CBC_DEMO_CT.drop 16).take 16,
        (CBC_DEMO_CT.drop 32).take 16, CBC_DEMO_CT.drop 48]
      (by decide) (by decide) (by decide) (by decide) (by decide) cbc_demo_enc (by decide)
      1 0 0 (by decide) (by decide) (by decide) (by decide) (by decide)).2.2.2.2 (by decide)⟩

/-- Claim C7: CTR tamper locality — replacing one byte at position p of
ciphertext block i (i at least 1, counting the prepended nonce block as block
0) of a `ctr_encrypt` output corrupts only the decrypted block aligned with
ciphertext position i; every other decrypted block is identical to the
untampered decryption. -/
theorem claim_C7_ctr_tamper_locality (nonce x key c : List Nat) (cs : List (List Nat))
    (hnl : nonce.length = 8) (hnb : ∀ v ∈ nonce, v < 256) (hx : ∀ v ∈ x, v < 256)
    (hk : key.length = 16) (hkb : ∀ v ∈ key, v < 256)
    (hc : ctr_encrypt nonce x key = some c) (hcs : group c = some cs)
    (i p v : Nat) (hi1 : 1 ≤ i) (hilen : i < cs.length) (hp : p < 16) (hv : v < 256)
    (hne : v ≠ (cs.getD i []).getD p 0) :
    ctr_decrypt (un_group (cs.set i ((cs.getD i []).set p v))) key =
      some (un_pad (un_group (ctrBlocks key
        (((cs.set i ((cs.getD i []).set p v)).getD 0 []).take 8) 0
        (cs.set i ((cs.getD i []).set p v)).tail))) ∧
    (ctrBlocks key (((cs.set i ((cs.getD i []).set p v)).getD 0 []).take 8) 0
        (cs.set i ((cs.getD i []).set p v)).tail).length =
      (ctrBlocks key ((cs.getD 0 []).take 8) 0 cs.tail).length ∧
    (∀ j, j + 1 ≠ i →
      (ctrBlocks key (((cs.set i ((cs.getD i []).set p v)).getD 0 []).take 8) 0
          (cs.set i ((cs.getD i []).set p v)).tail).getD j [] =
        (ctrBlocks key ((cs.getD 0 []).take 8) 0 cs.tail).getD j []) ∧
    (ctrBlocks key (((cs.set i ((cs.getD i []).set p v)).getD 0 []).take 8) 0
        (cs.set i ((cs.getD i []).set p v)).tail).getD (i - 1) [] ≠
      (ctrBlocks key ((cs.getD 0 []).take 8) 0 cs.tail).getD (i - 1) [] := by
  obtain ⟨bs, hg, rfl, hallv⟩ := ctr_encrypt_group nonce x key hnl hnb hx hk hkb c cs hc hcs
  obtain ⟨m, rfl⟩ : ∃ m, i = m + 1 := ⟨i - 1, by omega⟩
  set tb := ctrBlocks key nonce 0 bs with htb
  simp only [List.set_cons_succ, List.getD_cons_succ, List.getD_cons_zero, List.tail_cons,
    Nat.add_sub_cancel, List.length_cons] at hne hilen ⊢
  have htake : (nonce ++ List.replicate 8 0).take 8 = nonce := by
    rw [show (8 : Nat) = nonce.length from hnl.symm, List.take_left]
  rw [htake]
  have hmlt : m < tb.length := by omega
  set b := tb.getD m [] with hbdef
  set bT := b.set p v with hbTdef
  have hbl : b.length = 16 :=
    hallv b (List.mem_cons_of_mem _ (getD_mem_of_lt tb [] m hmlt))
  have hbTl : bT.length = 16 := by rw [hbTdef, List.length_set]; exact hbl
  have hbne : bT ≠ b := set_ne_self b p v (by rw [hbl]; exact hp) hne
  have htbv : ∀ bl ∈ tb, bl.length = 16 :=
    fun bl hbl => hallv bl (List.mem_cons_of_mem _ hbl)
  refine ⟨?_, ?_, fun j hj1 => ?_, ?_⟩
  · have hsetlens : ∀ bl ∈ (nonce ++ List.replicate 8 0) :: tb.set m bT,
        bl.length = 16 := by
      intro bl hbl
      rcases List.mem_cons.mp hbl with rfl | hbl
      · simp [hnl]
      · rcases List.mem_or_eq_of_mem_set hbl with hbl | rfl
        · exact htbv bl hbl
        · exact hbTl
    simp only [ctr_decrypt]
    rw [show un_group ((nonce ++ List.replicate 8 0) :: tb.set m bT) =
        ((nonce ++ List.replicate 8 0) :: tb.set m bT).flatten from rfl,
      group_join _ hsetlens]
    simp only [Option.some_bind, htake]
  · rw [ctrBlocks_length, ctrBlocks_length, List.length_set]
  · exact ctrBlocks_set_getD key nonce tb 0 m bT j (by omega)
  · exact ctrBlocks_set_corrupt key nonce hk hkb hnl hnb tb 0 m bT hmlt htbv hbTl
      (by rw [hbdef] at hbne; exact hbne)

/-- Witness for C7: tampering byte 0 of block 1 of a concrete 4-block CTR
ciphertext corrupts the decrypted block at position 1 and leaves the
decrypted block at position 2 unchanged. -/
theorem claim_C7_witness :
    (ctrBlocks TEST_KEY
        ((([CTR_DEMO_CT.take 16, (CTR_DEMO_CT.drop 16).take 16,
            (CTR_DEMO_CT.drop 32).take 16, CTR_DEMO_CT.drop 48].set 1
          (([CTR_DEMO_CT.take 16, (CTR_DEMO_CT.drop 16).take 16,
            (CTR_DEMO_CT.drop 32).take 16, CTR_DEMO_CT.drop 48].getD 1 []).set 0 0)).getD
            0 []).take 8) 0
        ([CTR_DEMO_CT.take 16, (CTR_DEMO_CT.drop 16).take 16,
            (CTR_DEMO_CT.drop 32).take 16, CTR_DEMO_CT.drop 48].set 1
          (([CTR_DEMO_CT.take 16, (CTR_DEMO_CT.drop 16).take 16,
            (CTR_DEMO_CT.drop 32).take 16, CTR_DEMO_CT.drop 48].getD 1 []).set 0 0)).tail).getD
        1 [] =
      (ctrBlocks TEST_KEY
        (([CTR_DEMO_CT.take 16, (CTR_DEMO_CT.drop 16).take 16,
          (CTR_DEMO_CT.drop 32).take 16, CTR_DEMO_CT.drop 48].getD 0 []).take 8) 0
        [CTR_DEMO_CT.take 16, (CTR_DEMO_CT.drop 16).take 16,
          (CTR_DEMO_CT.drop 32).take 16, CTR_DEMO_CT.drop 48].tail).getD 1 [] ∧
    (ctrBlocks TEST_KEY
        ((([CTR_DEMO_CT.take 16, (CTR_DEMO_CT.drop 16).take 16,
            (CTR_DEMO_CT.drop 32).take 16, CTR_DEMO_CT.drop 48].set 1
          (([CTR_DEMO_CT.take 16, (CTR_DEMO_CT.drop 16).take 16,
            (CTR_DEMO_CT.drop 32).take 16, CTR_DEMO_CT.drop 48].getD 1 []).set 0 0)).getD
            0 []).take 8) 0
        ([CTR_DEMO_CT.take 16, (CTR_DEMO_CT.drop 16).take 16,
            (CTR_DEMO_CT.drop 32).take 16, CTR_DEMO_CT.drop 48].set 1
          (([CTR_DEMO_CT.take 16, (CTR_DEMO_CT.drop 16).take 16,
            (CTR_DEMO_CT.drop 32).take 16, CTR_DEMO_CT.drop 48].getD 1 []).set 0 0)).tail).getD
        0 [] ≠
      (ctrBlocks TEST_KEY
        (([CTR_DEMO_CT.take 16, (CTR_DEMO_CT.drop 16).take 16,
          (CTR_DEMO_CT.drop 32).take 16, CTR_DEMO_CT.drop 48].getD 0 []).take 8) 0
        [CTR_DEMO_CT.take 16, (CTR_DEMO_CT.drop 16).take 16,
          (CTR_DEMO_CT.drop 32).take 16, CTR_DEMO_CT.drop 48].tail).getD 0 [] :=
  ⟨(claim_C7_ctr_tamper_locality (List.replicate 8 9) (List.replicate 32 7) TEST_KEY
      CTR_DEMO_CT
      [CTR_DEMO_CT.take 16, (CTR_DEMO_CT.drop 16).take 16,
        (CTR_DEMO_CT.drop 32).take 16, CTR_DEMO_CT.drop 48]
      (by decide) (by decide) (by decide) (by decide) (by decide) ctr_demo_enc (by decide)
      1 0 0 (by decide) (by decide) (by decide) (by decide) (by decide)).2.2.1 1 (by decide),
    (claim_C7_ctr_tamper_locality (List.replicate 8 9) (List.replicate 32 7) TEST_KEY
      CTR_DEMO_CT
      [CTR_DEMO_CT.take 16, (CTR_DEMO_CT.drop 16).take 16,
        (CTR_DEMO_CT.drop 32).take 16, CTR_DEMO_CT.drop 48]
      (by decide) (by decide) (by decide) (by decide) (by decide) ctr_demo_enc (by decide)
      1 0 0 (by decide) (by decide) (by decide) (by decide) (by decide)).2.2.2⟩

/-- Claim C10: on any input whose length is a nonzero multiple of 16, all
three decrypt entry points perform only in-bounds accesses and return
normally; on an empty input `cbc_decrypt` and `ctr_decrypt` panic on the
first-block index (modelled as `none`); on a length that is not a multiple of
16 the slice in `group` panics — malformed length is never reported through
an error value. -/
theorem claim_C10_decrypt_domain (ct key : List Nat) :
    (ct.length % 16 = 0 → ct ≠ [] →
      (ecb_decrypt ct key).isSome ∧ (cbc_decrypt ct key).isSome ∧
        (ctr_decrypt ct key).isSome) ∧
    (cbc_decrypt [] key = none ∧ ctr_decrypt [] key = none) ∧
    (ct.length % 16 ≠ 0 →
      ecb_decrypt ct key = none ∧ cbc_decrypt ct key = none ∧
        ctr_decrypt ct key = none) := by
  refine ⟨fun hmod hne => ?_, ⟨rfl, rfl⟩, fun hmod => ?_⟩
  · obtain ⟨bs, hg, hblen, hflat, -⟩ := group_of_mod ct hmod
    obtain ⟨b0, rest, rfl⟩ : ∃ b0 rest, bs = b0 :: rest := by
      cases bs with
      | nil => exact absurd hflat.symm hne
      | cons b0 rest => exact ⟨b0, rest, rfl⟩
    refine ⟨?_, ?_, ?_⟩
    · simp [ecb_decrypt, hg]
    · simp [cbc_decrypt, hg]
    · simp [ctr_decrypt, hg]
  · exact ⟨by simp [ecb_decrypt, group_none ct hmod],
      by simp [cbc_decrypt, group_none ct hmod],
      by simp [ctr_decrypt, group_none ct hmod]⟩

/-- Witness for C10 at a well-formed one-block input, the empty input, and a
malformed 5-byte input. -/
theorem claim_C10_witness :
    ((ecb_decrypt (List.replicate 16 0) (List.replicate 16 0)).isSome ∧
      (cbc_decrypt (List.replicate 16 0) (List.replicate 16 0)).isSome ∧
      (ctr_decrypt (List.replicate 16 0) (List.replicate 16 0)).isSome) ∧
    (cbc_decrypt [] (List.replicate 16 0) = none ∧
      ctr_decrypt [] (List.replicate 16 0) = none) ∧
    (ecb_decrypt [1, 2, 3, 4, 5] (List.replicate 16 0) = none ∧
      cbc_decrypt [1, 2, 3, 4, 5] (List.replicate 16 0) = none ∧
      ctr_decrypt [1, 2, 3, 4, 5] (List.replicate 16 0) = none) :=
  ⟨(claim_C10_decrypt_domain (List.replicate 16 0) (List.replicate 16 0)).1
      (by decide) (by decide),
    (claim_C10_decrypt_domain (List.replicate 16 0) (List.replicate 16 0)).2.1,
    (claim_C10_decrypt_domain [1, 2, 3, 4, 5] (List.replicate 16 0)).2.2 (by decide)⟩

end BlockModes
